import Mathlib

/-
Shallow embedding of the atomKV Bitcask storage engine (src/bitcask.go).

Modelling conventions:
* A byte string (Go `string` / `[]byte`, file contents) is a `List Nat`;
  well-formed byte strings have all entries below 256 (`ByteOk`).
* The in-memory index (Go `map[string]int64`) is an association list with
  unique keys; `idxSet` overwrites in place like a map assignment, and the
  iteration order of `Compact`'s `for key, off := range b.index` is modelled
  as the list order of the association list.
* File input/output that can fail in Go is modelled by injected outcome
  parameters (`WriteOutcome`, `EntryOut`); the state reached on each outcome
  mirrors what the Go code leaves behind on that path.
* The recursive scans (`Load`, and the reference parse `logRecsAux`) take an
  explicit fuel argument so that they are structurally recursive and compute
  by kernel reduction; every entry point passes `file.length + 1` fuel, which
  strictly exceeds the number of loop iterations (each iteration consumes at
  least 16 bytes of the file).
-/

namespace AtomKV

/-- Byte strings: lists of naturals standing for bytes. -/
abbrev Bytes := List Nat

/-- The in-memory index `map[string]int64`, as an association list
from key to absolute byte offset of the key's record. -/
abbrev Index := List (Bytes × Nat)

/-- All entries of a byte string are actual bytes (below 256). -/
abbrev ByteOk (bs : Bytes) : Prop := ∀ b ∈ bs, b < 256

/-- Little-endian encoding of a 32-bit unsigned length, as written by
`binary.Write(buf, binary.LittleEndian, uint32(n))`. -/
def u32le (n : Nat) : Bytes :=
  [n % 256, n / 256 % 256, n / 65536 % 256, n / 16777216 % 256]

/-- Little-endian encoding of a 64-bit unsigned value. -/
def u64le (n : Nat) : Bytes :=
  [n % 256, n / 256 % 256, n / 65536 % 256, n / 16777216 % 256,
   n / 4294967296 % 256, n / 1099511627776 % 256,
   n / 281474976710656 % 256, n / 72057594037927936 % 256]

/-- Little-endian two's-complement encoding of the `int64` timestamp written
by `binary.Write(buf, binary.LittleEndian, time.Now().UnixNano())`. -/
def i64le (t : Int) : Bytes := u64le (t % 18446744073709551616).toNat

/-- Little-endian decoding of a (up to 4 byte) length field, as done by
`binary.LittleEndian.Uint32`. -/
def u32dec (bs : Bytes) : Nat := bs.foldr (fun b acc => b + 256 * acc) 0

/-- Map assignment `index[key] = off`: overwrite the entry for `key`
if present, otherwise add one. -/
def idxSet : Index → Bytes → Nat → Index
  | [], k, off => [(k, off)]
  | p :: rest, k, off => if p.1 = k then (k, off) :: rest else p :: idxSet rest k off

/-- Map lookup `index[key]`. -/
def idxGet : Index → Bytes → Option Nat
  | [], _ => none
  | p :: rest, k => if p.1 = k then some p.2 else idxGet rest k

/-- `os.File.ReadAt`: reads exactly `n` bytes starting at byte `off`,
failing (with a non-nil error) when fewer than `n` bytes are available.
A zero-length read succeeds regardless of the offset. -/
def readAt (file : Bytes) (off n : Nat) : Option Bytes :=
  if n = 0 then some []
  else if off + n ≤ file.length then some ((file.drop off).take n)
  else none

/-- The engine state `Bitcask`: the contents of the log file bound to the
open handle, and the in-memory index. -/
structure Engine where
  file : Bytes
  index : Index
deriving DecidableEq, Repr

/-- A record image: 8 timestamp bytes, 4-byte little-endian key length,
4-byte little-endian value length, key bytes, value bytes. -/
def recBytes (tsB key value : Bytes) : Bytes :=
  tsB ++ u32le key.length ++ u32le value.length ++ key ++ value

/-- The buffered record written by `Set`: timestamp, key length,
value length, key, value. -/
def encRecord (ts : Int) (key value : Bytes) : Bytes := recBytes (i64le ts) key value

/-- Outcome of the file operations performed by one `Set` call: the
`Seek(0, io.SeekEnd)` may fail, and the single buffered `Write` may fail
after persisting a prefix of `written` bytes. -/
inductive WriteOutcome where
  | ok
  | seekFail
  | failAfter (written : Nat)
deriving DecidableEq, Repr

/-- One `Set(key, value)` call with timestamp `ts` under outcome `w`.
On success the record is appended and the index entry is set to the offset
at which the append began; on failure the function returns the error before
touching the index. -/
def setStep (e : Engine) (ts : Int) (key value : Bytes) (w : WriteOutcome) :
    Engine × Option Unit :=
  match w with
  | .seekFail => (e, some ())
  | .failAfter n => ({ e with file := e.file ++ (encRecord ts key value).take n }, some ())
  | .ok => ({ file := e.file ++ encRecord ts key value,
              index := idxSet e.index key e.file.length }, none)

/-- Errors surfaced by `Get`. -/
inductive GetErr where
  | keyNotFound
  | ioFailure
deriving DecidableEq, Repr

/-- One `Get(key)` call: look the key up in the index; read the 16-byte
header at the stored offset; decode `keySize` from header bytes 8..12 and
`valueSize` from bytes 12..16; read exactly `valueSize` bytes starting at
`offset + 16 + keySize`. The key bytes at the offset are never compared
with the requested key. -/
def getOp (e : Engine) (key : Bytes) : Except GetErr Bytes :=
  match idxGet e.index key with
  | none => .error .keyNotFound
  | some offset =>
    match readAt e.file offset 16 with
    | none => .error .ioFailure
    | some header =>
      let keySize := u32dec ((header.drop 8).take 4)
      let valueSize := u32dec ((header.drop 12).take 4)
      match readAt e.file (offset + 16 + keySize) valueSize with
      | none => .error .ioFailure
      | some valueBytes => .ok valueBytes

/-- The scan loop of `Load`, acting on the index that is threaded through.
Mirrors the Go loop exactly: a clean EOF before the timestamp read stops the
scan; a short read of the header or of the key bytes is an error; the value
is skipped with `Seek`, which succeeds even past the end of the file, so a
record whose declared value length overruns the file is still indexed and
the following iteration stops at EOF. Returns the index as left behind by
the loop together with `some ()` if an error was returned. -/
def loadAux (file : Bytes) : Nat → Nat → Index → Index × Option Unit
  | 0, _, idx => (idx, some ())
  | fuel + 1, pos, idx =>
    if file.length ≤ pos then (idx, none)
    else if file.length < pos + 8 then (idx, some ())
    else if file.length < pos + 12 then (idx, some ())
    else if file.length < pos + 16 then (idx, some ())
    else
      let ks := u32dec ((file.drop (pos + 8)).take 4)
      let vs := u32dec ((file.drop (pos + 12)).take 4)
      if file.length < pos + 16 + ks then (idx, some ())
      else loadAux file fuel (pos + 16 + ks + vs)
             (idxSet idx ((file.drop (pos + 16)).take ks) pos)

/-- One `Load()` call: seek to the start and scan the whole file,
overlaying `key ↦ offset` entries onto the existing index. -/
def loadOp (e : Engine) : Engine × Option Unit :=
  let r := loadAux e.file (e.file.length + 1) 0 e.index
  ({ e with index := r.1 }, r.2)

/-- The update sequence produced by the `Load` scan, with the same guard
structure as `loadAux` but independent of any starting index. -/
def scanUpds (file : Bytes) : Nat → Nat → List (Bytes × Nat) × Option Unit
  | 0, _ => ([], some ())
  | fuel + 1, pos =>
    if file.length ≤ pos then ([], none)
    else if file.length < pos + 8 then ([], some ())
    else if file.length < pos + 12 then ([], some ())
    else if file.length < pos + 16 then ([], some ())
    else
      let ks := u32dec ((file.drop (pos + 8)).take 4)
      let vs := u32dec ((file.drop (pos + 12)).take 4)
      if file.length < pos + 16 + ks then ([], some ())
      else
        let r := scanUpds file fuel (pos + 16 + ks + vs)
        (((file.drop (pos + 16)).take ks, pos) :: r.1, r.2)

/-- Apply a sequence of `key ↦ offset` updates to an index, in order. -/
def applyUpds (us : List (Bytes × Nat)) (idx : Index) : Index :=
  us.foldl (fun i u => idxSet i u.1 u.2) idx

/-- The offset carried by the last update for `k` in an update sequence. -/
def lastUpd : List (Bytes × Nat) → Bytes → Option Nat
  | [], _ => none
  | u :: us, k =>
    match lastUpd us k with
    | some o => some o
    | none => if u.1 = k then some u.2 else none

/-- Reference parse of a log file into its `(offset, key, value)` records:
succeeds only when the file is a clean concatenation of complete records.
This is the spec-side notion of the records contained in a log. -/
def logRecsAux (file : Bytes) : Nat → Nat → Option (List (Nat × Bytes × Bytes))
  | 0, _ => none
  | fuel + 1, pos =>
    if file.length ≤ pos then some []
    else if file.length < pos + 16 then none
    else
      let ks := u32dec ((file.drop (pos + 8)).take 4)
      let vs := u32dec ((file.drop (pos + 12)).take 4)
      if file.length < pos + 16 + ks + vs then none
      else
        match logRecsAux file fuel (pos + 16 + ks + vs) with
        | none => none
        | some recs =>
          some ((pos, (file.drop (pos + 16)).take ks,
                 (file.drop (pos + 16 + ks)).take vs) :: recs)

/-- The records of a log file, scanning from offset 0. -/
def logRecs (file : Bytes) : Option (List (Nat × Bytes × Bytes)) :=
  logRecsAux file (file.length + 1) 0

/-- A log file that is a clean concatenation of complete records. -/
def LogWF (file : Bytes) : Prop := ∃ recs, logRecs file = some recs

/-- The encoded size `16 + keySize + valueSize` of the record whose header
sits at `off`, with the sizes read from the header bytes. -/
def sizeAt (file : Bytes) (off : Nat) : Nat :=
  16 + u32dec ((file.drop (off + 8)).take 4) + u32dec ((file.drop (off + 12)).take 4)

/-- The 8 timestamp bytes read (and rewritten verbatim) by `Compact`;
if fewer than 8 bytes are available the decoded value stays zero. -/
def readTsBytes (file : Bytes) (off : Nat) : Bytes :=
  if off + 8 ≤ file.length then (file.drop off).take 8 else i64le 0

/-- A 4-byte length field read by `Compact`; zero if unavailable. -/
def readU32At (file : Bytes) (off : Nat) : Nat :=
  if off + 4 ≤ file.length then u32dec ((file.drop off).take 4) else 0

/-- `io.ReadFull` into a zero-initialised buffer of length `n`: the bytes
that are available, padded with zeros (the error is ignored by `Compact`). -/
def extendTo (bs : Bytes) (n : Nat) : Bytes := bs.take n ++ List.replicate (n - bs.length) 0

/-- The record `Compact` writes to the temporary file for one index entry:
the verbatim timestamp bytes, `uint32(len(key))`, the `valueSize` read from
the old header, the key string, and the value bytes read from the old log. -/
def compactEntry (file : Bytes) (key : Bytes) (off : Nat) : Bytes :=
  let tsB := readTsBytes file off
  let ks := readU32At file (off + 8)
  let vs := readU32At file (off + 12)
  let valueBytes := extendTo ((file.drop (off + 16 + ks)).take vs) vs
  tsB ++ u32le key.length ++ u32le vs ++ key ++ valueBytes

/-- Outcome of the file operations for one iteration of `Compact`'s loop:
the checked `Seek` to the entry's offset may fail; the unchecked writes to
the temporary file may fail after persisting a prefix (`written = some m`),
which the Go code ignores. -/
structure EntryOut where
  seekOk : Bool
  written : Option Nat
deriving DecidableEq, Repr

/-- Result of a `Compact` call: the engine state left behind, whether the
temporary file still exists afterwards, and the returned error. -/
structure CompactResult where
  engine : Engine
  tempRemains : Bool
  err : Option Unit
deriving DecidableEq, Repr

/-- The loop of `Compact` over the index entries: on a failed `Seek` the
temporary file is closed and removed and the error is returned with the
engine untouched; otherwise the record for the entry is written to the
temporary file (with an ignored, possibly short, write) and the new index
records the offset at which the record was placed. After the loop the old
file is closed and atomically replaced by the temporary file. -/
def compactLoop (orig : Engine) (outs : Nat → EntryOut) :
    List (Bytes × Nat) → Nat → Bytes → Index → CompactResult
  | [], _, temp, nidx => ⟨⟨temp, nidx⟩, false, none⟩
  | p :: rest, i, temp, nidx =>
    if (outs i).seekOk then
      let bytes := compactEntry orig.file p.1 p.2
      let w := match (outs i).written with
        | none => bytes
        | some m => bytes.take m
      compactLoop orig outs rest (i + 1) (temp ++ w) (idxSet nidx p.1 temp.length)
    else ⟨orig, false, some ()⟩

/-- One `Compact()` call with injected outcomes: opening the temporary file
may fail (engine untouched, nothing created); otherwise the loop runs and,
on success, the rename installs the new file and index. -/
def compactRun (e : Engine) (tempOpenOk : Bool) (outs : Nat → EntryOut) : CompactResult :=
  if tempOpenOk then compactLoop e outs e.index 0 [] [] else ⟨e, false, some ()⟩

/-- All file operations succeed. -/
def allOk : Nat → EntryOut := fun _ => ⟨true, none⟩

/-- The engine after a fully successful `Compact()`. -/
def compactOp (e : Engine) : Engine := (compactRun e true allOk).engine

/-- The pure effect of `Compact`'s loop when every file operation succeeds:
append each entry's rewritten record to the temporary file and point the new
index at the offset where it was placed. -/
def compactFold (file : Bytes) : List (Bytes × Nat) → Bytes → Index → Bytes × Index
  | [], temp, nidx => (temp, nidx)
  | p :: rest, temp, nidx =>
    compactFold file rest (temp ++ compactEntry file p.1 p.2) (idxSet nidx p.1 temp.length)

/-- `Keys()`: all keys currently in the index. -/
def keysOp (e : Engine) : List Bytes := e.index.map Prod.fst

/-- An index entry is valid for a record list: it points at a record whose
key is the entry's key and whose offset is the largest among the records
for that key. -/
abbrev entryOk (recs : List (Nat × Bytes × Bytes)) (p : Bytes × Nat) : Prop :=
  ∃ r ∈ recs, r.1 = p.2 ∧ r.2.1 = p.1 ∧ ∀ r' ∈ recs, r'.2.1 = p.1 → r'.1 ≤ r.1

/-- All entries of an index are valid for a record list, and the keys are
unique (as they are in a Go map). -/
abbrev idxOk (recs : List (Nat × Bytes × Bytes)) (idx : Index) : Prop :=
  (∀ p ∈ idx, entryOk recs p) ∧ (idx.map Prod.fst).Nodup

/-- Well-formed engine state: the log is a clean sequence of complete
records over actual bytes, and every index entry points at the start of the
most recently written (largest-offset) record for its key. -/
def StateWF (e : Engine) : Prop :=
  ByteOk e.file ∧ ∃ recs, logRecs e.file = some recs ∧ idxOk recs e.index

/-! ### Slice arithmetic helpers -/

theorem slice_append_left (a b : Bytes) (i n : Nat) (h : i + n ≤ a.length) :
    ((a ++ b).drop i).take n = (a.drop i).take n := by
  rw [List.drop_append_of_le_length (by omega : i ≤ a.length),
      List.take_append_of_le_length (by simp; omega)]

theorem drop_append_right (a b : Bytes) (j : Nat) :
    (a ++ b).drop (a.length + j) = b.drop j := List.drop_append j

theorem take_of_length_eq {a : Bytes} {n : Nat} (h : a.length = n) : a.take n = a := by
  subst h; exact List.take_length a

/-! ### Encoding lemmas -/

theorem u32le_length (n : Nat) : (u32le n).length = 4 := rfl

theorem u64le_length (n : Nat) : (u64le n).length = 8 := rfl

theorem i64le_length (t : Int) : (i64le t).length = 8 := rfl

theorem u32dec_cons (b : Nat) (rest : Bytes) :
    u32dec (b :: rest) = b + 256 * u32dec rest := rfl

theorem u32dec_u32le (n : Nat) : u32dec (u32le n) = n % 2 ^ 32 := by
  show n % 256 + 256 * (n / 256 % 256 + 256 * (n / 65536 % 256 +
    256 * (n / 16777216 % 256 + 256 * 0))) = n % 2 ^ 32
  omega

theorem u32dec_lt_pow (bs : Bytes) (h : ByteOk bs) : u32dec bs < 256 ^ bs.length := by
  induction bs with
  | nil => simp [u32dec]
  | cons b rest ih =>
    have hb : b < 256 := h b (List.mem_cons_self b rest)
    have hr : u32dec rest < 256 ^ rest.length :=
      ih (fun x hx => h x (List.mem_cons_of_mem b hx))
    rw [u32dec_cons, List.length_cons, pow_succ, Nat.mul_comm (256 ^ rest.length) 256]
    calc b + 256 * u32dec rest < 256 * (u32dec rest + 1) := by omega
      _ ≤ 256 * 256 ^ rest.length := Nat.mul_le_mul_left 256 hr

theorem u32dec_lt (bs : Bytes) (h : ByteOk bs) (hl : bs.length ≤ 4) :
    u32dec bs < 2 ^ 32 := by
  have h1 := u32dec_lt_pow bs h
  have h2 : (256 : Nat) ^ bs.length ≤ 256 ^ 4 := Nat.pow_le_pow_right (by norm_num) hl
  calc u32dec bs < 256 ^ bs.length := h1
    _ ≤ 256 ^ 4 := h2
    _ = 2 ^ 32 := by norm_num

theorem byteOk_append {a b : Bytes} (ha : ByteOk a) (hb : ByteOk b) : ByteOk (a ++ b) := by
  intro x hx
  rcases List.mem_append.1 hx with h | h
  · exact ha x h
  · exact hb x h

theorem byteOk_take {a : Bytes} (n : Nat) (ha : ByteOk a) : ByteOk (a.take n) :=
  fun x hx => ha x (List.mem_of_mem_take hx)

theorem byteOk_drop {a : Bytes} (n : Nat) (ha : ByteOk a) : ByteOk (a.drop n) :=
  fun x hx => ha x (List.mem_of_mem_drop hx)

theorem byteOk_u32le (n : Nat) : ByteOk (u32le n) := by
  intro b hb
  simp only [u32le, List.mem_cons, List.not_mem_nil, or_false] at hb
  rcases hb with rfl | rfl | rfl | rfl <;> exact Nat.mod_lt _ (by norm_num)

theorem byteOk_u64le (n : Nat) : ByteOk (u64le n) := by
  intro b hb
  simp only [u64le, List.mem_cons, List.not_mem_nil, or_false] at hb
  rcases hb with rfl | rfl | rfl | rfl | rfl | rfl | rfl | rfl <;>
    exact Nat.mod_lt _ (by norm_num)

theorem byteOk_i64le (t : Int) : ByteOk (i64le t) := byteOk_u64le _

theorem byteOk_recBytes {tsB k v : Bytes} (hts : ByteOk tsB) (hk : ByteOk k)
    (hv : ByteOk v) : ByteOk (recBytes tsB k v) := by
  unfold recBytes
  exact byteOk_append (byteOk_append (byteOk_append (byteOk_append hts
    (byteOk_u32le _)) (byteOk_u32le _)) hk) hv

theorem byteOk_encRecord {k v : Bytes} (ts : Int) (hk : ByteOk k) (hv : ByteOk v) :
    ByteOk (encRecord ts k v) := byteOk_recBytes (byteOk_i64le ts) hk hv

theorem recBytes_length (tsB k v : Bytes) (hts : tsB.length = 8) :
    (recBytes tsB k v).length = 16 + k.length + v.length := by
  simp [recBytes, hts, u32le_length]
  omega

/-! ### Index (Go map) lemmas -/

theorem idxGet_idxSet_self (idx : Index) (k : Bytes) (off : Nat) :
    idxGet (idxSet idx k off) k = some off := by
  induction idx with
  | nil => simp [idxSet, idxGet]
  | cons p rest ih =>
    by_cases h : p.1 = k
    · simp [idxSet, idxGet, h]
    · simp [idxSet, idxGet, h, ih]

theorem idxGet_idxSet_ne (idx : Index) (k : Bytes) (off : Nat) (q : Bytes) (h : q ≠ k) :
    idxGet (idxSet idx k off) q = idxGet idx q := by
  have hkq : ¬(k = q) := fun he => h he.symm
  induction idx with
  | nil => simp [idxSet, idxGet, hkq]
  | cons p rest ih =>
    by_cases hp : p.1 = k
    · have hpq : ¬(p.1 = q) := by rw [hp]; exact hkq
      simp [idxSet, idxGet, hp, hkq, hpq]
    · by_cases hq : p.1 = q
      · simp [idxSet, idxGet, hp, hq, hkq, h]
      · simp [idxSet, idxGet, hp, hq, ih]

theorem idxSet_map_fst_mem (idx : Index) (k : Bytes) (off : Nat)
    (h : k ∈ idx.map Prod.fst) : (idxSet idx k off).map Prod.fst = idx.map Prod.fst := by
  induction idx with
  | nil => simp at h
  | cons p rest ih =>
    by_cases hp : p.1 = k
    · simp [idxSet, hp]
    · have hr : k ∈ rest.map Prod.fst := by
        simp only [List.map_cons, List.mem_cons] at h
        exact h.resolve_left (fun he => hp he.symm)
      simp [idxSet, hp, ih hr]

theorem idxSet_map_fst_not_mem (idx : Index) (k : Bytes) (off : Nat)
    (h : k ∉ idx.map Prod.fst) :
    (idxSet idx k off).map Prod.fst = idx.map Prod.fst ++ [k] := by
  induction idx with
  | nil => simp [idxSet]
  | cons p rest ih =>
    have hp : p.1 ≠ k := by
      intro he; exact h (by simp [he])
    have hr : k ∉ rest.map Prod.fst := by
      intro hm; exact h (by simp [hm])
    simp [idxSet, hp, ih hr]

theorem idxSet_nodup (idx : Index) (k : Bytes) (off : Nat)
    (h : (idx.map Prod.fst).Nodup) : ((idxSet idx k off).map Prod.fst).Nodup := by
  by_cases hm : k ∈ idx.map Prod.fst
  · rw [idxSet_map_fst_mem idx k off hm]; exact h
  · rw [idxSet_map_fst_not_mem idx k off hm]
    simp [List.nodup_append, h, hm]

theorem mem_of_idxGet_eq_some (idx : Index) (k : Bytes) (off : Nat)
    (h : idxGet idx k = some off) : (k, off) ∈ idx := by
  induction idx with
  | nil => simp [idxGet] at h
  | cons p rest ih =>
    by_cases hp : p.1 = k
    · simp only [idxGet, if_pos hp] at h
      have : p = (k, off) := by
        cases p; cases h; cases hp; rfl
      simp [this]
    · simp only [idxGet, if_neg hp] at h
      exact List.mem_cons_of_mem p (ih h)

theorem idxGet_eq_some_of_mem (idx : Index) (p : Bytes × Nat)
    (hn : (idx.map Prod.fst).Nodup) (h : p ∈ idx) : idxGet idx p.1 = some p.2 := by
  induction idx with
  | nil => simp at h
  | cons q rest ih =>
    rcases List.mem_cons.1 h with rfl | hm
    · simp [idxGet]
    · have hq : q.1 ≠ p.1 := by
        intro he
        have : q.1 ∈ rest.map Prod.fst := he ▸ List.mem_map_of_mem Prod.fst hm
        exact (List.nodup_cons.1 hn).1 this
      simp only [idxGet, if_neg hq]
      exact ih (List.nodup_cons.1 hn).2 hm

theorem mem_idxSet (idx : Index) (k : Bytes) (off : Nat) (p : Bytes × Nat)
    (hn : (idx.map Prod.fst).Nodup) (h : p ∈ idxSet idx k off) :
    p = (k, off) ∨ (p ∈ idx ∧ p.1 ≠ k) := by
  induction idx with
  | nil =>
    simp only [idxSet, List.mem_singleton] at h
    exact Or.inl h
  | cons q rest ih =>
    by_cases hq : q.1 = k
    · simp only [idxSet, if_pos hq, List.mem_cons] at h
      rcases h with rfl | hm
      · exact Or.inl rfl
      · have hp1 : p.1 ≠ k := by
          intro he
          have : q.1 ∈ rest.map Prod.fst := by
            rw [hq, ← he]
            exact List.mem_map_of_mem Prod.fst hm
          exact (List.nodup_cons.1 hn).1 this
        exact Or.inr ⟨List.mem_cons_of_mem q hm, hp1⟩
    · simp only [idxSet, if_neg hq, List.mem_cons] at h
      rcases h with rfl | hm
      · exact Or.inr ⟨List.mem_cons_self p rest, hq⟩
      · rcases ih (List.nodup_cons.1 hn).2 hm with h1 | ⟨h2, h3⟩
        · exact Or.inl h1
        · exact Or.inr ⟨List.mem_cons_of_mem q h2, h3⟩

/-! ### Reading a record through `Get` -/

theorem readAt_eq (file : Bytes) (off n : Nat) (h : off + n ≤ file.length) :
    readAt file off n = some ((file.drop off).take n) := by
  unfold readAt
  by_cases h0 : n = 0
  · subst h0; simp
  · rw [if_neg h0, if_pos h]

theorem getOp_record (pre post tsB k v : Bytes) (idx : Index)
    (hts : tsB.length = 8) (hk : k.length < 2 ^ 32) (hv : v.length < 2 ^ 32)
    (hidx : idxGet idx k = some pre.length) :
    getOp ⟨pre ++ (recBytes tsB k v ++ post), idx⟩ k = .ok v := by
  have hrl : (recBytes tsB k v).length = 16 + k.length + v.length := recBytes_length _ _ _ hts
  have hsplit : recBytes tsB k v ++ post
      = ((tsB ++ u32le k.length) ++ u32le v.length) ++ ((k ++ v) ++ post) := by
    simp [recBytes, List.append_assoc]
  have h16 : pre.length + 16 ≤ (pre ++ (recBytes tsB k v ++ post)).length := by
    simp [List.length_append, hrl]
    omega
  have hheader : ((pre ++ (recBytes tsB k v ++ post)).drop pre.length).take 16
      = (tsB ++ u32le k.length) ++ u32le v.length := by
    rw [List.drop_left pre _, hsplit]
    exact List.take_left' (by simp [hts, u32le_length])
  have hks : ((((tsB ++ u32le k.length) ++ u32le v.length).drop 8).take 4) = u32le k.length := by
    rw [List.append_assoc, List.drop_left' hts]
    exact List.take_append_of_le_length (by simp [u32le_length])
  have hvs : ((((tsB ++ u32le k.length) ++ u32le v.length).drop 12).take 4) = u32le v.length := by
    rw [List.drop_left' (by simp [hts, u32le_length] : ((tsB ++ u32le k.length)).length = 12)]
    exact take_of_length_eq (u32le_length _)
  have hvread : readAt (pre ++ (recBytes tsB k v ++ post)) (pre.length + 16 + k.length) v.length
      = some v := by
    rw [readAt_eq _ _ _ (by simp [List.length_append, hrl]; omega)]
    congr 1
    have harith : pre.length + 16 + k.length = pre.length + (16 + k.length) := by omega
    rw [harith, drop_append_right]
    have hsplit2 : recBytes tsB k v ++ post
        = (((tsB ++ u32le k.length) ++ u32le v.length) ++ k) ++ (v ++ post) := by
      simp [recBytes, List.append_assoc]
    rw [hsplit2, List.drop_left' (by simp [hts, u32le_length]; omega)]
    exact List.take_left v post
  unfold getOp
  simp only [hidx]
  rw [readAt_eq _ _ _ h16, hheader]
  simp only [hks, hvs, u32dec_u32le, Nat.mod_eq_of_lt hk, Nat.mod_eq_of_lt hv, hvread]

/-- C1: for every key `k` and value `v` (with lengths representable in 32
bits, as the data model requires), on an open engine a successful
`Set(k, v)` immediately followed by `Get(k)` returns exactly `v`. -/
theorem set_get_roundtrip (e : Engine) (ts : Int) (k v : Bytes)
    (hk : k.length < 2 ^ 32) (hv : v.length < 2 ^ 32) :
    getOp (setStep e ts k v .ok).1 k = .ok v := by
  have h := getOp_record e.file [] (i64le ts) k v (idxSet e.index k e.file.length)
    (i64le_length ts) hk hv (idxGet_idxSet_self _ _ _)
  simpa [setStep, encRecord] using h

/-- Witness for C1 at a concrete input. -/
theorem set_get_roundtrip_witness :
    getOp (setStep ⟨[], []⟩ 0 [107] [1, 2] .ok).1 [107] = .ok [1, 2] :=
  set_get_roundtrip ⟨[], []⟩ 0 [107] [1, 2] (by decide) (by decide)

/-- C6: if the append performed by `Set` fails (the seek or the single
buffered write), `Set` returns the failure and the in-memory index is left
unchanged — a failed `Set` never creates or moves an index entry. -/
theorem set_fail_index_unchanged (e : Engine) (ts : Int) (key value : Bytes)
    (w : WriteOutcome) (hw : w ≠ .ok) :
    (setStep e ts key value w).2 = some () ∧
    (setStep e ts key value w).1.index = e.index := by
  cases w with
  | ok => exact absurd rfl hw
  | seekFail => exact ⟨rfl, rfl⟩
  | failAfter n => exact ⟨rfl, rfl⟩

/-- Witness for C6 at a concrete input: a write that fails after 3 bytes. -/
theorem set_fail_index_unchanged_witness :
    (setStep ⟨[], [([9], 0)]⟩ 0 [1] [2] (.failAfter 3)).2 = some () ∧
    (setStep ⟨[], [([9], 0)]⟩ 0 [1] [2] (.failAfter 3)).1.index = [([9], 0)] :=
  set_fail_index_unchanged ⟨[], [([9], 0)]⟩ 0 [1] [2] (.failAfter 3) (by decide)

theorem readAt_some (file : Bytes) (off n : Nat) (bs : Bytes)
    (h : readAt file off n = some bs) :
    bs = (file.drop off).take n ∧ (n = 0 ∨ off + n ≤ file.length) := by
  unfold readAt at h
  by_cases h0 : n = 0
  · rw [if_pos h0] at h
    subst h0
    refine ⟨?_, Or.inl rfl⟩
    simp only [List.take_zero]
    exact (Option.some.injEq _ _ ▸ h).symm
  · rw [if_neg h0] at h
    by_cases hle : off + n ≤ file.length
    · rw [if_pos hle] at h
      exact ⟨(Option.some.injEq _ _ ▸ h).symm, Or.inr hle⟩
    · rw [if_neg hle] at h
      exact absurd h (by simp)

/-- C8: `Get(k)` fails with `KeyNotFound` exactly when `k` is absent from
the index; otherwise it recovers `keySize` and `valueSize` from the 16-byte
header at the stored offset and returns exactly the `valueSize` bytes
starting at `offset + 16 + keySize`. The last conjunct shows that the key
bytes stored at the offset are not re-validated: a lookup through an index
entry pointing at a record with different key bytes still succeeds. -/
theorem get_spec (e : Engine) (k : Bytes) :
    (idxGet e.index k = none → getOp e k = .error .keyNotFound) ∧
    (getOp e k = .error .keyNotFound → idxGet e.index k = none) ∧
    (∀ off, idxGet e.index k = some off → ∀ v, getOp e k = .ok v →
      v = (e.file.drop (off + 16 + u32dec ((e.file.drop (off + 8)).take 4))).take
            (u32dec ((e.file.drop (off + 12)).take 4)) ∧
      v.length = u32dec ((e.file.drop (off + 12)).take 4)) ∧
    getOp ⟨encRecord 0 [5] [9], [([7], 0)]⟩ [7] = .ok [9] := by
  refine ⟨?_, ?_, ?_, rfl⟩
  · intro h
    simp only [getOp, h]
  · intro h
    cases hidx : idxGet e.index k with
    | none => rfl
    | some off =>
      exfalso
      simp only [getOp, hidx] at h
      cases hr : readAt e.file off 16 with
      | none => simp only [hr] at h; exact absurd h (by simp)
      | some header =>
        simp only [hr] at h
        cases hr2 : readAt e.file (off + 16 + u32dec ((header.drop 8).take 4))
            (u32dec ((header.drop 12).take 4)) with
        | none => simp only [hr2] at h; exact absurd h (by simp)
        | some vb => simp only [hr2] at h; exact absurd h (by simp)
  · intro off hoff v hv
    simp only [getOp, hoff] at hv
    cases hr : readAt e.file off 16 with
    | none => simp only [hr] at hv; exact absurd hv (by simp)
    | some header =>
      simp only [hr] at hv
      obtain ⟨hhd, h16⟩ := readAt_some e.file off 16 header hr
      rcases h16 with h16 | h16
      · omega
      subst hhd
      have hks : ((((e.file.drop off).take 16).drop 8).take 4)
          = (e.file.drop (off + 8)).take 4 := by
        rw [List.drop_take, List.drop_drop, List.take_take]
        norm_num
      have hvs : ((((e.file.drop off).take 16).drop 12).take 4)
          = (e.file.drop (off + 12)).take 4 := by
        rw [List.drop_take, List.drop_drop, List.take_take]
        norm_num
      rw [hks, hvs] at hv
      cases hr2 : readAt e.file (off + 16 + u32dec ((e.file.drop (off + 8)).take 4))
          (u32dec ((e.file.drop (off + 12)).take 4)) with
      | none => simp only [hr2] at hv; exact absurd hv (by simp)
      | some vb =>
        simp only [hr2, Except.ok.injEq] at hv
        subst hv
        obtain ⟨hvb, hcase⟩ := readAt_some _ _ _ _ hr2
        refine ⟨hvb, ?_⟩
        rcases hcase with h0 | hle
        · rw [hvb, h0]
          simp
        · rw [hvb, List.length_take, List.length_drop]
          omega

/-- Witness for C8 at a concrete input: lookup on a fresh (empty) store. -/
theorem get_spec_witness : getOp ⟨[], []⟩ [3] = .error .keyNotFound :=
  (get_spec ⟨[], []⟩ [3]).1 rfl

/-- C3 counterexample: a log holding one record whose header declares a
5-byte value but where the file ends after 2 value bytes (19 bytes total,
against a declared record size of 22). `Load` succeeds (`none` error) and
the truncated record enters the index at offset 0, contradicting the claim
that such a load fails and never indexes the partial record. -/
theorem load_truncated_value_accepted :
    (loadOp ⟨(encRecord 0 [107] [1, 2, 3, 4, 5]).take 19, []⟩).2 = none ∧
    (loadOp ⟨(encRecord 0 [107] [1, 2, 3, 4, 5]).take 19, []⟩).1.index = [([107], 0)] ∧
    ((encRecord 0 [107] [1, 2, 3, 4, 5]).take 19).length <
      sizeAt ((encRecord 0 [107] [1, 2, 3, 4, 5]).take 19) 0 :=
  ⟨by decide, by decide, by decide⟩

/-- C3 as amended: the `Load` scan fails (and leaves the index exactly as
it was, never indexing the failing record) when the file ends inside a
record's 16-byte header or inside its declared key bytes; but a record
whose declared value length overruns the end of the file is silently
accepted — its entry is added to the index and the scan then stops with a
clean EOF, so `Load` succeeds. -/
theorem load_truncation_behavior (file : Bytes) (fuel pos : Nat) (idx : Index)
    (hpos : pos < file.length) :
    (file.length < pos + 16 → loadAux file (fuel + 1) pos idx = (idx, some ())) ∧
    (pos + 16 ≤ file.length →
      file.length < pos + 16 + u32dec ((file.drop (pos + 8)).take 4) →
      loadAux file (fuel + 1) pos idx = (idx, some ())) ∧
    (pos + 16 + u32dec ((file.drop (pos + 8)).take 4) ≤ file.length →
      file.length < pos + 16 + u32dec ((file.drop (pos + 8)).take 4)
        + u32dec ((file.drop (pos + 12)).take 4) →
      loadAux file (fuel + 2) pos idx =
        (idxSet idx ((file.drop (pos + 16)).take (u32dec ((file.drop (pos + 8)).take 4))) pos,
         none)) := by
  have c1 : ¬ (file.length ≤ pos) := by omega
  refine ⟨?_, ?_, ?_⟩
  · intro h
    by_cases h8 : file.length < pos + 8
    · simp [loadAux, c1, h8]
    · by_cases h12 : file.length < pos + 12
      · simp [loadAux, c1, h8, h12]
      · simp [loadAux, c1, h8, h12, h]
  · intro h16 hks
    have c2 : ¬ (file.length < pos + 8) := by omega
    have c3 : ¬ (file.length < pos + 12) := by omega
    have c4 : ¬ (file.length < pos + 16) := by omega
    simp [loadAux, c1, c2, c3, c4, hks]
  · intro hks hvs
    have c2 : ¬ (file.length < pos + 8) := by omega
    have c3 : ¬ (file.length < pos + 12) := by omega
    have c4 : ¬ (file.length < pos + 16) := by omega
    have c5 : ¬ (file.length < pos + 16 + u32dec ((file.drop (pos + 8)).take 4)) := by omega
    have c6 : file.length ≤ pos + 16 + u32dec ((file.drop (pos + 8)).take 4)
        + u32dec ((file.drop (pos + 12)).take 4) := by omega
    simp [loadAux, c1, c2, c3, c4, c5, c6]

/-- Witness for the amended C3 at a concrete input: a file cut inside the
header makes the scan fail without touching the index. -/
theorem load_truncation_behavior_witness :
    loadAux ((encRecord 0 [9] [1]).take 10) 1 0 [] = ([], some ()) :=
  (load_truncation_behavior ((encRecord 0 [9] [1]).take 10) 0 0 [] (by decide)).1 (by decide)

/-- C4 counterexample: a `Compact` in which the temporary-file write for
the only entry fails (persisting 0 of its bytes). The Go code ignores this
write error, so `Compact` returns success (`err = none`) even though a step
before the rename failed, and the engine is replaced (with a corrupt empty
log), contradicting the claim that any pre-rename failure returns
`IOFailure` and leaves the engine untouched. -/
theorem compact_ignored_write_failure :
    (compactRun ⟨encRecord 0 [1] [2], [([1], 0)]⟩ true (fun _ => ⟨true, some 0⟩)).err = none ∧
    (compactRun ⟨encRecord 0 [1] [2], [([1], 0)]⟩ true (fun _ => ⟨true, some 0⟩)).engine ≠
      ⟨encRecord 0 [1] [2], [([1], 0)]⟩ :=
  ⟨by decide, by decide⟩

theorem compactLoop_fail (orig : Engine) (outs : Nat → EntryOut) :
    ∀ (entries : List (Bytes × Nat)) (i : Nat) (temp : Bytes) (nidx : Index),
      (compactLoop orig outs entries i temp nidx).err = some () →
      (compactLoop orig outs entries i temp nidx).engine = orig ∧
      (compactLoop orig outs entries i temp nidx).tempRemains = false := by
  intro entries
  induction entries with
  | nil => intro i temp nidx h; simp [compactLoop] at h
  | cons p rest ih =>
    intro i temp nidx h
    by_cases hs : (outs i).seekOk = true
    · simp only [compactLoop, if_pos hs] at h ⊢
      exact ih _ _ _ h
    · simp only [compactLoop, if_neg hs] at h ⊢
      exact ⟨trivial, trivial⟩

/-- C4 as amended: `Compact` returns a failure only from its checked steps
(opening the temporary file, or the per-entry seek in the old log), and
whenever it does fail the original log and index are left untouched and the
temporary file does not remain; failures of the per-record reads and of the
temporary-file writes are ignored, so they do not abort `Compact`. -/
theorem compact_checked_fail_preserves (e : Engine) (tOk : Bool) (outs : Nat → EntryOut)
    (h : (compactRun e tOk outs).err = some ()) :
    (compactRun e tOk outs).engine = e ∧ (compactRun e tOk outs).tempRemains = false := by
  by_cases ht : tOk = true
  · simp only [compactRun, if_pos ht] at h ⊢
    exact compactLoop_fail e outs e.index 0 [] [] h
  · simp only [compactRun, if_neg ht] at h ⊢
    exact ⟨trivial, trivial⟩

/-- Witness for the amended C4 at a concrete input: a failed seek on the
single entry leaves the engine untouched and removes the temporary file. -/
theorem compact_checked_fail_preserves_witness :
    (compactRun ⟨encRecord 0 [3] [4], [([3], 0)]⟩ true (fun _ => ⟨false, none⟩)).engine =
      (⟨encRecord 0 [3] [4], [([3], 0)]⟩ : Engine) ∧
    (compactRun ⟨encRecord 0 [3] [4], [([3], 0)]⟩ true
      (fun _ => ⟨false, none⟩)).tempRemains = false :=
  compact_checked_fail_preserves ⟨encRecord 0 [3] [4], [([3], 0)]⟩ true
    (fun _ => ⟨false, none⟩) (by decide)

/-! ### The `Load` scan as an update sequence, and idempotence -/

theorem applyUpds_nil (idx : Index) : applyUpds [] idx = idx := rfl

theorem applyUpds_cons (u : Bytes × Nat) (us : List (Bytes × Nat)) (idx : Index) :
    applyUpds (u :: us) idx = applyUpds us (idxSet idx u.1 u.2) := rfl

theorem loadAux_eq_scan (file : Bytes) :
    ∀ (fuel pos : Nat) (idx : Index),
      loadAux file fuel pos idx
        = (applyUpds (scanUpds file fuel pos).1 idx, (scanUpds file fuel pos).2) := by
  intro fuel
  induction fuel with
  | zero => intro pos idx; rfl
  | succ fuel ih =>
    intro pos idx
    by_cases h1 : file.length ≤ pos
    · simp [loadAux, scanUpds, h1, applyUpds]
    · by_cases h2 : file.length < pos + 8
      · simp [loadAux, scanUpds, h1, h2, applyUpds]
      · by_cases h3 : file.length < pos + 12
        · simp [loadAux, scanUpds, h1, h2, h3, applyUpds]
        · by_cases h4 : file.length < pos + 16
          · simp [loadAux, scanUpds, h1, h2, h3, h4, applyUpds]
          · by_cases h5 : file.length < pos + 16 + u32dec ((file.drop (pos + 8)).take 4)
            · simp [loadAux, scanUpds, h1, h2, h3, h4, h5, applyUpds]
            · simp only [loadAux, scanUpds, if_neg h1, if_neg h2, if_neg h3, if_neg h4,
                if_neg h5]
              rw [ih, applyUpds_cons]

theorem idxSet_keys_mem (idx : Index) (k : Bytes) (off : Nat) (q : Bytes)
    (h : q ∈ idx.map Prod.fst) : q ∈ (idxSet idx k off).map Prod.fst := by
  by_cases hm : k ∈ idx.map Prod.fst
  · rw [idxSet_map_fst_mem idx k off hm]; exact h
  · rw [idxSet_map_fst_not_mem idx k off hm]; exact List.mem_append_left _ h

theorem idxSet_keys_self (idx : Index) (k : Bytes) (off : Nat) :
    k ∈ (idxSet idx k off).map Prod.fst := by
  by_cases hm : k ∈ idx.map Prod.fst
  · rw [idxSet_map_fst_mem idx k off hm]; exact hm
  · rw [idxSet_map_fst_not_mem idx k off hm]; exact List.mem_append_right _ (by simp)

theorem applyUpds_keys_mem (us : List (Bytes × Nat)) :
    ∀ (idx : Index) (q : Bytes), q ∈ idx.map Prod.fst →
      q ∈ (applyUpds us idx).map Prod.fst := by
  induction us with
  | nil => intro idx q h; exact h
  | cons u us ih =>
    intro idx q h
    rw [applyUpds_cons]
    exact ih _ _ (idxSet_keys_mem idx u.1 u.2 q h)

theorem applyUpds_keys_of_upd (us : List (Bytes × Nat)) :
    ∀ (idx : Index) (u : Bytes × Nat), u ∈ us →
      u.1 ∈ (applyUpds us idx).map Prod.fst := by
  induction us with
  | nil => intro idx u h; simp at h
  | cons w us ih =>
    intro idx u h
    rw [applyUpds_cons]
    rcases List.mem_cons.1 h with rfl | h
    · exact applyUpds_keys_mem us _ u.1 (idxSet_keys_self idx u.1 u.2)
    · exact ih _ u h

theorem applyUpds_nodup (us : List (Bytes × Nat)) :
    ∀ (idx : Index), (idx.map Prod.fst).Nodup →
      ((applyUpds us idx).map Prod.fst).Nodup := by
  induction us with
  | nil => intro idx h; exact h
  | cons u us ih =>
    intro idx h
    rw [applyUpds_cons]
    exact ih _ (idxSet_nodup idx u.1 u.2 h)

theorem idxGet_applyUpds (us : List (Bytes × Nat)) :
    ∀ (idx : Index) (k : Bytes),
      idxGet (applyUpds us idx) k
        = match lastUpd us k with
          | some o => some o
          | none => idxGet idx k := by
  induction us with
  | nil => intro idx k; rfl
  | cons u us ih =>
    intro idx k
    rw [applyUpds_cons, ih]
    show _ = (match (match lastUpd us k with
      | some o => some o
      | none => if u.1 = k then some u.2 else none) with
        | some o => some o
        | none => idxGet idx k)
    cases hl : lastUpd us k with
    | some o => rfl
    | none =>
      by_cases hu : u.1 = k
      · subst hu
        simp [idxGet_idxSet_self]
      · simp [hu, idxGet_idxSet_ne idx u.1 u.2 k (fun he => hu he.symm)]

theorem idxGet_eq_none_of_not_mem (idx : Index) (k : Bytes)
    (h : k ∉ idx.map Prod.fst) : idxGet idx k = none := by
  induction idx with
  | nil => rfl
  | cons p rest ih =>
    have hp : ¬ (p.1 = k) := by
      intro he; exact h (by simp [he])
    have hr : k ∉ rest.map Prod.fst := by
      intro hm; exact h (by simp [hm])
    simp only [idxGet, if_neg hp]
    exact ih hr

theorem idx_ext (B : Index) :
    ∀ (C : Index), B.map Prod.fst = C.map Prod.fst → (B.map Prod.fst).Nodup →
      (∀ k, idxGet B k = idxGet C k) → B = C := by
  induction B with
  | nil =>
    intro C hkeys _ _
    cases C with
    | nil => rfl
    | cons c C => simp at hkeys
  | cons b B ih =>
    intro C hkeys hnd hget
    cases C with
    | nil => simp at hkeys
    | cons c C =>
      simp only [List.map_cons, List.cons.injEq] at hkeys
      obtain ⟨hk1, hkeys⟩ := hkeys
      have hb : idxGet (b :: B) b.1 = some b.2 := by simp [idxGet]
      have hc : idxGet (c :: C) b.1 = some c.2 := by
        have : c.1 = b.1 := hk1.symm
        simp [idxGet, this]
      have hval : b.2 = c.2 := by
        have h2 : some b.2 = some c.2 := by rw [← hb, hget b.1, hc]
        exact Option.some.injEq _ _ ▸ h2
      have hnotB : b.1 ∉ B.map Prod.fst := (List.nodup_cons.1 hnd).1
      have hnotC : b.1 ∉ C.map Prod.fst := by rw [← hkeys]; exact hnotB
      have htail : ∀ k, idxGet B k = idxGet C k := by
        intro k
        by_cases hk : k = b.1
        · rw [hk, idxGet_eq_none_of_not_mem B b.1 hnotB,
            idxGet_eq_none_of_not_mem C b.1 hnotC]
        · have h1 := hget k
          have hb1 : ¬ (b.1 = k) := fun he => hk he.symm
          have hc1 : ¬ (c.1 = k) := by rw [← hk1]; exact hb1
          simp only [idxGet, if_neg hb1, if_neg hc1] at h1
          exact h1
      have hbc : b = c := by
        obtain ⟨b1, b2⟩ := b
        obtain ⟨c1, c2⟩ := c
        simp only [Prod.mk.injEq]
        exact ⟨hk1, hval⟩
      rw [hbc, ih C hkeys (List.nodup_cons.1 hnd).2 htail]

theorem applyUpds_fixpoint (us : List (Bytes × Nat)) :
    ∀ (B C : Index), B.map Prod.fst = C.map Prod.fst → (B.map Prod.fst).Nodup →
      (∀ u ∈ us, u.1 ∈ B.map Prod.fst) →
      (∀ k, (match lastUpd us k with
             | some o => some o
             | none => idxGet B k) = idxGet C k) →
      applyUpds us B = C := by
  induction us with
  | nil =>
    intro B C hkeys hnd _ hval
    exact idx_ext B C hkeys hnd (fun k => by simpa [lastUpd] using hval k)
  | cons u us ih =>
    intro B C hkeys hnd hmem hval
    rw [applyUpds_cons]
    have humem : u.1 ∈ B.map Prod.fst := hmem u (List.mem_cons_self u us)
    apply ih (idxSet B u.1 u.2) C
    · rw [idxSet_map_fst_mem B u.1 u.2 humem]; exact hkeys
    · rw [idxSet_map_fst_mem B u.1 u.2 humem]; exact hnd
    · intro w hw
      rw [idxSet_map_fst_mem B u.1 u.2 humem]
      exact hmem w (List.mem_cons_of_mem u hw)
    · intro k
      have hv := hval k
      by_cases hk : u.1 = k
      · subst hk
        cases hl : lastUpd us u.1 with
        | some o =>
          have hcons : lastUpd (u :: us) u.1 = some o := by simp [lastUpd, hl]
          rw [hcons] at hv
          simpa [hl] using hv
        | none =>
          have hcons : lastUpd (u :: us) u.1 = some u.2 := by simp [lastUpd, hl]
          rw [hcons] at hv
          simpa [hl, idxGet_idxSet_self] using hv
      · have hcons : lastUpd (u :: us) k = lastUpd us k := by
          cases hl : lastUpd us k with
          | some o => simp [lastUpd, hl]
          | none => simp [lastUpd, hl, hk]
        rw [hcons] at hv
        cases hl : lastUpd us k with
        | some o => rw [hl] at hv; simpa [hl] using hv
        | none =>
          rw [hl] at hv
          simpa [hl, idxGet_idxSet_ne B u.1 u.2 k (fun he => hk he.symm)] using hv

theorem applyUpds_idem (us : List (Bytes × Nat)) (idx : Index)
    (hnd : (idx.map Prod.fst).Nodup) :
    applyUpds us (applyUpds us idx) = applyUpds us idx := by
  apply applyUpds_fixpoint us (applyUpds us idx) (applyUpds us idx) rfl
    (applyUpds_nodup us idx hnd)
  · intro u hu
    exact applyUpds_keys_of_upd us idx u hu
  · intro k
    cases hl : lastUpd us k with
    | some o => simp [hl, idxGet_applyUpds, lastUpd]
    | none => simp [hl]

/-- C9: `Load` is idempotent — for every engine state (with the unique map
keys a Go map guarantees) and any log contents, calling `Load` twice in
succession leaves exactly the state (index and returned error) of calling
it once, since each call re-scans from offset 0 and overwrites per-key
entries rather than merging. -/
theorem load_idempotent (e : Engine) (hnd : (e.index.map Prod.fst).Nodup) :
    loadOp (loadOp e).1 = loadOp e := by
  unfold loadOp
  simp only [loadAux_eq_scan]
  rw [applyUpds_idem _ _ hnd]

/-- Witness for C9 at a concrete input: a one-record log and an index
holding an unrelated key. -/
theorem load_idempotent_witness :
    loadOp (loadOp ⟨encRecord 0 [1] [2], [([9], 3)]⟩).1
      = loadOp ⟨encRecord 0 [1] [2], [([9], 3)]⟩ :=
  load_idempotent ⟨encRecord 0 [1] [2], [([9], 3)]⟩ (by decide)

/-! ### The reference parse of a clean log -/

theorem logRecsAux_mono (file : Bytes) :
    ∀ (fuel fuel' pos : Nat) (recs : List (Nat × Bytes × Bytes)),
      logRecsAux file fuel pos = some recs → fuel ≤ fuel' →
      logRecsAux file fuel' pos = some recs := by
  intro fuel
  induction fuel with
  | zero => intro fuel' pos recs h; simp [logRecsAux] at h
  | succ fuel ih =>
    intro fuel' pos recs h hle
    obtain ⟨f2, rfl⟩ : ∃ f2, fuel' = f2 + 1 := ⟨fuel' - 1, by omega⟩
    by_cases h1 : file.length ≤ pos
    · simp only [logRecsAux, if_pos h1] at h ⊢
      exact h
    · by_cases h2 : file.length < pos + 16
      · simp only [logRecsAux, if_neg h1, if_pos h2] at h
        exact absurd h (by simp)
      · by_cases h3 : file.length < pos + 16 + u32dec ((file.drop (pos + 8)).take 4)
            + u32dec ((file.drop (pos + 12)).take 4)
        · simp only [logRecsAux, if_neg h1, if_neg h2, if_pos h3] at h
          exact absurd h (by simp)
        · simp only [logRecsAux, if_neg h1, if_neg h2, if_neg h3] at h ⊢
          cases hr : logRecsAux file fuel (pos + 16 + u32dec ((file.drop (pos + 8)).take 4)
              + u32dec ((file.drop (pos + 12)).take 4)) with
          | none => rw [hr] at h; exact absurd h (by simp)
          | some rest =>
            rw [hr] at h
            rw [ih f2 _ rest hr (by omega)]
            exact h

theorem logRecsAux_eof (file : Bytes) (fuel pos : Nat) (h : file.length ≤ pos) :
    logRecsAux file (fuel + 1) pos = some [] := by
  simp [logRecsAux, h]

theorem logRecsAux_step (pre post tsB k v : Bytes) (fuel : Nat)
    (hts : tsB.length = 8) (hk : k.length < 2 ^ 32) (hv : v.length < 2 ^ 32) :
    logRecsAux (pre ++ (recBytes tsB k v ++ post)) (fuel + 1) pre.length
      = (logRecsAux (pre ++ (recBytes tsB k v ++ post)) fuel
          (pre.length + 16 + k.length + v.length)).map
          (fun recs => (pre.length, k, v) :: recs) := by
  have hrl : (recBytes tsB k v).length = 16 + k.length + v.length := recBytes_length _ _ _ hts
  have hflen : (pre ++ (recBytes tsB k v ++ post)).length
      = pre.length + (16 + k.length + v.length) + post.length := by
    simp [List.length_append, hrl]
    omega
  have hshape : recBytes tsB k v ++ post
      = tsB ++ (u32le k.length ++ (u32le v.length ++ (k ++ (v ++ post)))) := by
    simp [recBytes, List.append_assoc]
  have hdrop : ∀ j : Nat, (pre ++ (recBytes tsB k v ++ post)).drop (pre.length + j)
      = (recBytes tsB k v ++ post).drop j := fun j => drop_append_right _ _ j
  have hks : ((pre ++ (recBytes tsB k v ++ post)).drop (pre.length + 8)).take 4
      = u32le k.length := by
    rw [hdrop 8, hshape, List.drop_left' hts]
    exact List.take_append_of_le_length (by simp [u32le_length]) |>.trans
      (take_of_length_eq (u32le_length _))
  have hvs : ((pre ++ (recBytes tsB k v ++ post)).drop (pre.length + 12)).take 4
      = u32le v.length := by
    rw [hdrop 12, hshape]
    rw [show tsB ++ (u32le k.length ++ (u32le v.length ++ (k ++ (v ++ post))))
        = (tsB ++ u32le k.length) ++ (u32le v.length ++ (k ++ (v ++ post))) from by
      simp [List.append_assoc]]
    rw [List.drop_left' (by simp [hts, u32le_length])]
    exact List.take_append_of_le_length (by simp [u32le_length]) |>.trans
      (take_of_length_eq (u32le_length _))
  have hkey : ((pre ++ (recBytes tsB k v ++ post)).drop (pre.length + 16)).take k.length
      = k := by
    rw [hdrop 16, hshape]
    rw [show tsB ++ (u32le k.length ++ (u32le v.length ++ (k ++ (v ++ post))))
        = ((tsB ++ u32le k.length) ++ u32le v.length) ++ (k ++ (v ++ post)) from by
      simp [List.append_assoc]]
    rw [List.drop_left' (by simp [hts, u32le_length])]
    exact List.take_append_of_le_length (by simp) |>.trans (take_of_length_eq rfl)
  have hval : ((pre ++ (recBytes tsB k v ++ post)).drop (pre.length + (16 + k.length))).take
      v.length = v := by
    rw [hdrop (16 + k.length), hshape]
    rw [show tsB ++ (u32le k.length ++ (u32le v.length ++ (k ++ (v ++ post))))
        = (((tsB ++ u32le k.length) ++ u32le v.length) ++ k) ++ (v ++ post) from by
      simp [List.append_assoc]]
    rw [List.drop_left' (by simp [hts, u32le_length]; omega)]
    exact List.take_append_of_le_length (by simp) |>.trans (take_of_length_eq rfl)
  have c1 : ¬ ((pre ++ (recBytes tsB k v ++ post)).length ≤ pre.length) := by
    rw [hflen]; omega
  have c2 : ¬ ((pre ++ (recBytes tsB k v ++ post)).length < pre.length + 16) := by
    rw [hflen]; omega
  simp only [logRecsAux, if_neg c1, if_neg c2, hks, hvs, u32dec_u32le,
    Nat.mod_eq_of_lt hk, Nat.mod_eq_of_lt hv]
  have c3 : ¬ ((pre ++ (recBytes tsB k v ++ post)).length
      < pre.length + 16 + k.length + v.length) := by
    rw [hflen]; omega
  rw [if_neg c3]
  have harr : pre.length + 16 + k.length = pre.length + (16 + k.length) := by omega
  rw [harr, hkey, hval]
  cases logRecsAux (pre ++ (recBytes tsB k v ++ post)) fuel
      (pre.length + (16 + k.length) + v.length) with
  | none => rfl
  | some rest => rfl

theorem logRecsAux_succ (file : Bytes) (fuel pos : Nat) :
    logRecsAux file (fuel + 1) pos
      = if file.length ≤ pos then some []
        else if file.length < pos + 16 then none
        else
          let ks := u32dec ((file.drop (pos + 8)).take 4)
          let vs := u32dec ((file.drop (pos + 12)).take 4)
          if file.length < pos + 16 + ks + vs then none
          else
            match logRecsAux file fuel (pos + 16 + ks + vs) with
            | none => none
            | some recs => some ((pos, (file.drop (pos + 16)).take ks,
                (file.drop (pos + 16 + ks)).take vs) :: recs) := rfl

theorem logRecsAux_append_record (file tsB k v : Bytes)
    (hts : tsB.length = 8) (hk : k.length < 2 ^ 32) (hv : v.length < 2 ^ 32) :
    ∀ (fuel pos : Nat) (recs : List (Nat × Bytes × Bytes)),
      pos ≤ file.length →
      logRecsAux file fuel pos = some recs →
      logRecsAux (file ++ recBytes tsB k v) (fuel + 1) pos
        = some (recs ++ [(file.length, k, v)]) := by
  have hrl : (recBytes tsB k v).length = 16 + k.length + v.length := recBytes_length _ _ _ hts
  intro fuel
  induction fuel with
  | zero => intro pos recs _ h; simp [logRecsAux] at h
  | succ fuel ih =>
    intro pos recs hpos h
    by_cases h1 : file.length ≤ pos
    · have hpe : pos = file.length := le_antisymm hpos h1
      simp only [logRecsAux, if_pos h1] at h
      have hre : recs = [] := by
        have := Option.some.injEq ([] : List (Nat × Bytes × Bytes)) recs ▸ h
        exact this.symm
      subst hre
      subst hpe
      have hstep := logRecsAux_step file [] tsB k v (fuel + 1) hts hk hv
      rw [List.append_nil] at hstep
      rw [hstep]
      have heof : logRecsAux (file ++ recBytes tsB k v) (fuel + 1)
          (file.length + 16 + k.length + v.length) = some [] :=
        logRecsAux_eof _ fuel _ (by simp [List.length_append, hrl]; omega)
      rw [heof]
      rfl
    · by_cases h2 : file.length < pos + 16
      · simp only [logRecsAux, if_neg h1, if_pos h2] at h
        exact absurd h (by simp)
      · by_cases h3 : file.length < pos + 16 + u32dec ((file.drop (pos + 8)).take 4)
            + u32dec ((file.drop (pos + 12)).take 4)
        · simp only [logRecsAux, if_neg h1, if_neg h2, if_pos h3] at h
          exact absurd h (by simp)
        · simp only [logRecsAux, if_neg h1, if_neg h2, if_neg h3] at h
          cases hr : logRecsAux file fuel (pos + 16 + u32dec ((file.drop (pos + 8)).take 4)
              + u32dec ((file.drop (pos + 12)).take 4)) with
          | none => rw [hr] at h; exact absurd h (by simp)
          | some rest =>
            rw [hr] at h
            have hrecs : recs = (pos, (file.drop (pos + 16)).take
                (u32dec ((file.drop (pos + 8)).take 4)),
                (file.drop (pos + 16 + u32dec ((file.drop (pos + 8)).take 4))).take
                (u32dec ((file.drop (pos + 12)).take 4))) :: rest := by
              have := Option.some.injEq _ recs ▸ h
              exact this.symm
            have hsl8 : ((file ++ recBytes tsB k v).drop (pos + 8)).take 4
                = (file.drop (pos + 8)).take 4 :=
              slice_append_left _ _ _ _ (by omega)
            have hsl12 : ((file ++ recBytes tsB k v).drop (pos + 12)).take 4
                = (file.drop (pos + 12)).take 4 :=
              slice_append_left _ _ _ _ (by omega)
            have hslk : ((file ++ recBytes tsB k v).drop (pos + 16)).take
                (u32dec ((file.drop (pos + 8)).take 4))
                = (file.drop (pos + 16)).take (u32dec ((file.drop (pos + 8)).take 4)) :=
              slice_append_left _ _ _ _ (by omega)
            have hslv : ((file ++ recBytes tsB k v).drop
                (pos + 16 + u32dec ((file.drop (pos + 8)).take 4))).take
                (u32dec ((file.drop (pos + 12)).take 4))
                = (file.drop (pos + 16 + u32dec ((file.drop (pos + 8)).take 4))).take
                  (u32dec ((file.drop (pos + 12)).take 4)) :=
              slice_append_left _ _ _ _ (by omega)
            have c1 : ¬ ((file ++ recBytes tsB k v).length ≤ pos) := by
              simp only [List.length_append]
              omega
            have c2 : ¬ ((file ++ recBytes tsB k v).length < pos + 16) := by
              simp only [List.length_append]
              omega
            have c3 : ¬ ((file ++ recBytes tsB k v).length
                < pos + 16 + u32dec ((file.drop (pos + 8)).take 4)
                  + u32dec ((file.drop (pos + 12)).take 4)) := by
              simp only [List.length_append]
              omega
            rw [logRecsAux_succ, if_neg c1, if_neg c2]
            simp only [hsl8, hsl12, if_neg c3]
            rw [ih _ rest (by omega) hr]
            rw [hslk, hslv, hrecs]
            rfl

theorem scanUpds_of_logRecs (file : Bytes) :
    ∀ (fuel pos : Nat) (recs : List (Nat × Bytes × Bytes)),
      logRecsAux file fuel pos = some recs →
      scanUpds file fuel pos = (recs.map (fun r => (r.2.1, r.1)), none) := by
  intro fuel
  induction fuel with
  | zero => intro pos recs h; simp [logRecsAux] at h
  | succ fuel ih =>
    intro pos recs h
    by_cases h1 : file.length ≤ pos
    · simp only [logRecsAux, if_pos h1] at h
      have hre : recs = [] := by
        have := Option.some.injEq ([] : List (Nat × Bytes × Bytes)) recs ▸ h
        exact this.symm
      subst hre
      simp [scanUpds, h1]
    · by_cases h2 : file.length < pos + 16
      · simp only [logRecsAux, if_neg h1, if_pos h2] at h
        exact absurd h (by simp)
      · by_cases h3 : file.length < pos + 16 + u32dec ((file.drop (pos + 8)).take 4)
            + u32dec ((file.drop (pos + 12)).take 4)
        · simp only [logRecsAux, if_neg h1, if_neg h2, if_pos h3] at h
          exact absurd h (by simp)
        · simp only [logRecsAux, if_neg h1, if_neg h2, if_neg h3] at h
          cases hr : logRecsAux file fuel (pos + 16 + u32dec ((file.drop (pos + 8)).take 4)
              + u32dec ((file.drop (pos + 12)).take 4)) with
          | none => rw [hr] at h; exact absurd h (by simp)
          | some rest =>
            rw [hr] at h
            have hrecs : recs = (pos, (file.drop (pos + 16)).take
                (u32dec ((file.drop (pos + 8)).take 4)),
                (file.drop (pos + 16 + u32dec ((file.drop (pos + 8)).take 4))).take
                (u32dec ((file.drop (pos + 12)).take 4))) :: rest := by
              have := Option.some.injEq _ recs ▸ h
              exact this.symm
            have c2 : ¬ (file.length < pos + 8) := by omega
            have c3 : ¬ (file.length < pos + 12) := by omega
            have c4 : ¬ (file.length < pos + 16) := by omega
            have c5 : ¬ (file.length < pos + 16 + u32dec ((file.drop (pos + 8)).take 4)) := by
              omega
            simp only [scanUpds, if_neg h1, if_neg c2, if_neg c3, if_neg c4, if_neg c5]
            rw [ih _ rest hr, hrecs]
            simp

theorem lastUpd_append_last (us : List (Bytes × Nat)) (k : Bytes) (x : Nat) :
    lastUpd (us ++ [(k, x)]) k = some x := by
  induction us with
  | nil => simp [lastUpd]
  | cons u us ih => simp [lastUpd, ih]

theorem loadOp_clean (file : Bytes) (recs : List (Nat × Bytes × Bytes))
    (h : logRecs file = some recs) :
    loadOp ⟨file, []⟩
      = (⟨file, applyUpds (recs.map (fun r => (r.2.1, r.1))) []⟩, none) := by
  unfold logRecs at h
  unfold loadOp
  rw [loadAux_eq_scan, scanUpds_of_logRecs file _ _ _ h]

/-- C2: after `Set(k, a)` then `Set(k, b)` on an engine whose log is a clean
record sequence, `Get(k)` returns `b`; and after closing, reopening the same
path (fresh empty index over the same file) and running `Load`, `Get(k)`
still returns `b` — the record at the largest offset wins, in memory and
across restart. -/
theorem last_write_wins (e : Engine) (ts1 ts2 : Int) (k a b : Bytes)
    (hwf : LogWF e.file) (hk : k.length < 2 ^ 32) (ha : a.length < 2 ^ 32)
    (hb : b.length < 2 ^ 32) :
    getOp (setStep (setStep e ts1 k a .ok).1 ts2 k b .ok).1 k = .ok b ∧
    (loadOp ⟨(setStep (setStep e ts1 k a .ok).1 ts2 k b .ok).1.file, []⟩).2 = none ∧
    getOp (loadOp ⟨(setStep (setStep e ts1 k a .ok).1 ts2 k b .ok).1.file, []⟩).1 k
      = .ok b := by
  obtain ⟨recs0, hrecs0⟩ := hwf
  unfold logRecs at hrecs0
  have hral : (encRecord ts1 k a).length = 16 + k.length + a.length :=
    recBytes_length _ _ _ (i64le_length _)
  have hrbl : (encRecord ts2 k b).length = 16 + k.length + b.length :=
    recBytes_length _ _ _ (i64le_length _)
  have hfile2 : (setStep (setStep e ts1 k a .ok).1 ts2 k b .ok).1.file
      = (e.file ++ encRecord ts1 k a) ++ encRecord ts2 k b := rfl
  have h1 := logRecsAux_append_record e.file (i64le ts1) k a (i64le_length _) hk ha
    (e.file.length + 1) 0 recs0 (by omega) hrecs0
  have h2 := logRecsAux_append_record (e.file ++ encRecord ts1 k a) (i64le ts2) k b
    (i64le_length _) hk hb (e.file.length + 1 + 1) 0 _ (by omega) h1
  have h3 : logRecs ((e.file ++ encRecord ts1 k a) ++ encRecord ts2 k b)
      = some ((recs0 ++ [(e.file.length, k, a)])
          ++ [((e.file ++ encRecord ts1 k a).length, k, b)]) := by
    unfold logRecs
    exact logRecsAux_mono _ _ _ _ _ h2 (by simp [List.length_append]; omega)
  have hload := loadOp_clean ((e.file ++ encRecord ts1 k a) ++ encRecord ts2 k b) _ h3
  refine ⟨set_get_roundtrip _ ts2 k b hk hb, ?_, ?_⟩
  · rw [hfile2, hload]
  · rw [hfile2, hload]
    have hupds : (((recs0 ++ [(e.file.length, k, a)])
        ++ [((e.file ++ encRecord ts1 k a).length, k, b)]).map (fun r => (r.2.1, r.1)))
        = ((recs0 ++ [(e.file.length, k, a)]).map (fun r => (r.2.1, r.1)))
          ++ [(k, (e.file ++ encRecord ts1 k a).length)] := by simp
    have hget : idxGet (applyUpds (((recs0 ++ [(e.file.length, k, a)])
        ++ [((e.file ++ encRecord ts1 k a).length, k, b)]).map (fun r => (r.2.1, r.1))) []) k
        = some (e.file ++ encRecord ts1 k a).length := by
      rw [idxGet_applyUpds, hupds, lastUpd_append_last]
    have hg := getOp_record (e.file ++ encRecord ts1 k a) [] (i64le ts2) k b _
      (i64le_length _) hk hb hget
    simpa using hg

/-- Witness for C2 at a concrete input: a fresh store, `a = [1]`, `b = [2]`. -/
theorem last_write_wins_witness :
    getOp (setStep (setStep ⟨[], []⟩ 0 [7] [1] .ok).1 0 [7] [2] .ok).1 [7] = .ok [2] ∧
    (loadOp ⟨(setStep (setStep ⟨[], []⟩ 0 [7] [1] .ok).1 0 [7] [2] .ok).1.file, []⟩).2
      = none ∧
    getOp (loadOp ⟨(setStep (setStep ⟨[], []⟩ 0 [7] [1] .ok).1 0 [7] [2] .ok).1.file,
      []⟩).1 [7] = .ok [2] :=
  last_write_wins ⟨[], []⟩ 0 0 [7] [1] [2] ⟨[], rfl⟩ (by decide) (by decide) (by decide)

/-- C10: the empty key and the empty value are accepted: `Set("", v)` and
`Set(k, "")` succeed, append records of sizes `16 + len(v)` and
`16 + len(k)` respectively, round-trip through `Get` (an empty-valued key
yields `""`, not `KeyNotFound`), and survive `Load` after a close/reopen of
the same log. -/
theorem empty_key_value_ok (e : Engine) (ts1 ts2 : Int) (k v : Bytes)
    (hwf : LogWF e.file) (hk : k.length < 2 ^ 32) (hv : v.length < 2 ^ 32) :
    (setStep e ts1 [] v .ok).2 = none ∧
    (setStep e ts1 [] v .ok).1.file.length = e.file.length + (16 + v.length) ∧
    getOp (setStep e ts1 [] v .ok).1 [] = .ok v ∧
    (setStep e ts2 k [] .ok).2 = none ∧
    (setStep e ts2 k [] .ok).1.file.length = e.file.length + (16 + k.length) ∧
    getOp (setStep e ts2 k [] .ok).1 k = .ok [] ∧
    getOp (setStep e ts2 k [] .ok).1 k ≠ .error .keyNotFound ∧
    (loadOp ⟨(setStep e ts1 [] v .ok).1.file, []⟩).2 = none ∧
    getOp (loadOp ⟨(setStep e ts1 [] v .ok).1.file, []⟩).1 [] = .ok v ∧
    (loadOp ⟨(setStep e ts2 k [] .ok).1.file, []⟩).2 = none ∧
    getOp (loadOp ⟨(setStep e ts2 k [] .ok).1.file, []⟩).1 k = .ok [] := by
  obtain ⟨recs0, hrecs0⟩ := hwf
  unfold logRecs at hrecs0
  have h0 : ([] : Bytes).length < 2 ^ 32 := by norm_num
  have hvl : (encRecord ts1 [] v).length = 16 + v.length := by
    unfold encRecord
    rw [recBytes_length _ _ _ (i64le_length _)]
    simp
  have hkl : (encRecord ts2 k []).length = 16 + k.length + 0 :=
    recBytes_length _ _ _ (i64le_length _)
  have hg1 : getOp (setStep e ts1 [] v .ok).1 [] = .ok v :=
    set_get_roundtrip e ts1 [] v h0 hv
  have hg2 : getOp (setStep e ts2 k [] .ok).1 k = .ok [] :=
    set_get_roundtrip e ts2 k [] hk h0
  -- reopen with the empty-key record
  have ha1 := logRecsAux_append_record e.file (i64le ts1) [] v (i64le_length _) h0 hv
    (e.file.length + 1) 0 recs0 (by omega) hrecs0
  have ha3 : logRecs (e.file ++ encRecord ts1 [] v)
      = some (recs0 ++ [(e.file.length, [], v)]) := by
    unfold logRecs
    exact logRecsAux_mono _ _ _ _ _ ha1 (by simp [List.length_append, hvl]; omega)
  have hloadA := loadOp_clean (e.file ++ encRecord ts1 [] v) _ ha3
  have hmapA : ((recs0 ++ [(e.file.length, ([] : Bytes), v)]).map
      (fun r : Nat × Bytes × Bytes => (r.2.1, r.1)))
      = (recs0.map (fun r : Nat × Bytes × Bytes => (r.2.1, r.1)))
        ++ [(([] : Bytes), e.file.length)] := by simp
  have hgetA : idxGet (applyUpds ((recs0 ++ [(e.file.length, [], v)]).map
      (fun r : Nat × Bytes × Bytes => (r.2.1, r.1))) []) [] = some e.file.length := by
    rw [idxGet_applyUpds, hmapA, lastUpd_append_last]
  have hgA := getOp_record e.file [] (i64le ts1) [] v _ (i64le_length _) h0 hv hgetA
  -- reopen with the empty-value record
  have hb1 := logRecsAux_append_record e.file (i64le ts2) k [] (i64le_length _) hk h0
    (e.file.length + 1) 0 recs0 (by omega) hrecs0
  have hb3 : logRecs (e.file ++ encRecord ts2 k [])
      = some (recs0 ++ [(e.file.length, k, [])]) := by
    unfold logRecs
    exact logRecsAux_mono _ _ _ _ _ hb1 (by simp [List.length_append]; omega)
  have hloadB := loadOp_clean (e.file ++ encRecord ts2 k []) _ hb3
  have hmapB : ((recs0 ++ [(e.file.length, k, ([] : Bytes))]).map
      (fun r : Nat × Bytes × Bytes => (r.2.1, r.1)))
      = (recs0.map (fun r : Nat × Bytes × Bytes => (r.2.1, r.1)))
        ++ [(k, e.file.length)] := by simp
  have hgetB : idxGet (applyUpds ((recs0 ++ [(e.file.length, k, [])]).map
      (fun r : Nat × Bytes × Bytes => (r.2.1, r.1))) []) k = some e.file.length := by
    rw [idxGet_applyUpds, hmapB, lastUpd_append_last]
  have hgB := getOp_record e.file [] (i64le ts2) k [] _ (i64le_length _) hk h0 hgetB
  refine ⟨rfl, ?_, hg1, rfl, ?_, hg2, ?_, ?_, ?_, ?_, ?_⟩
  · show (e.file ++ encRecord ts1 [] v).length = e.file.length + (16 + v.length)
    simp [List.length_append, hvl]
  · show (e.file ++ encRecord ts2 k []).length = e.file.length + (16 + k.length)
    simp [List.length_append, hkl]
  · intro hc
    have := hg2.symm.trans hc
    exact absurd this (by simp)
  · show (loadOp ⟨e.file ++ encRecord ts1 [] v, []⟩).2 = none
    rw [hloadA]
  · show getOp (loadOp ⟨e.file ++ encRecord ts1 [] v, []⟩).1 [] = .ok v
    rw [hloadA]
    simpa using hgA
  · show (loadOp ⟨e.file ++ encRecord ts2 k [], []⟩).2 = none
    rw [hloadB]
  · show getOp (loadOp ⟨e.file ++ encRecord ts2 k [], []⟩).1 k = .ok []
    rw [hloadB]
    simpa using hgB

/-- Witness for C10 at a concrete input: a fresh store, `k = [5]`,
`v = [8, 9]`. -/
theorem empty_key_value_ok_witness :
    getOp (setStep ⟨[], []⟩ 0 [] [8, 9] .ok).1 [] = .ok [8, 9] ∧
    getOp (setStep ⟨[], []⟩ 0 [5] [] .ok).1 [5] = .ok [] :=
  ⟨(empty_key_value_ok ⟨[], []⟩ 0 0 [5] [8, 9] ⟨[], rfl⟩ (by decide) (by decide)).2.2.1,
   (empty_key_value_ok ⟨[], []⟩ 0 0 [5] [8, 9] ⟨[], rfl⟩ (by decide)
     (by decide)).2.2.2.2.2.1⟩

/-! ### Structure of a clean parse -/

theorem u32le_u32dec (bs : Bytes) (h : ByteOk bs) (hl : bs.length = 4) :
    u32le (u32dec bs) = bs := by
  rcases bs with _ | ⟨b0, _ | ⟨b1, _ | ⟨b2, _ | ⟨b3, _ | ⟨b4, t⟩⟩⟩⟩⟩ <;> simp at hl
  have h0 : b0 < 256 := h b0 (by simp)
  have h1 : b1 < 256 := h b1 (by simp)
  have h2 : b2 < 256 := h b2 (by simp)
  have h3 : b3 < 256 := h b3 (by simp)
  simp only [u32le, u32dec, List.foldr, List.cons.injEq, and_true]
  omega

theorem sizeAt_pos (file : Bytes) (off : Nat) : 1 ≤ sizeAt file off := by
  unfold sizeAt
  omega

theorem logRecsAux_structure (file : Bytes) :
    ∀ (fuel pos : Nat) (recs : List (Nat × Bytes × Bytes)),
      logRecsAux file fuel pos = some recs → pos ≤ file.length →
      ((recs.map (fun r => sizeAt file r.1)).sum + pos = file.length ∧
       (∀ r ∈ recs, pos ≤ r.1 ∧ r.1 + sizeAt file r.1 ≤ file.length) ∧
       recs.Pairwise (fun r r' => r.1 < r'.1)) := by
  intro fuel
  induction fuel with
  | zero => intro pos recs h; simp [logRecsAux] at h
  | succ fuel ih =>
    intro pos recs h hpos
    by_cases h1 : file.length ≤ pos
    · simp only [logRecsAux, if_pos h1] at h
      have hre : recs = [] := by
        have := Option.some.injEq ([] : List (Nat × Bytes × Bytes)) recs ▸ h
        exact this.symm
      subst hre
      refine ⟨by simp; omega, by simp, by simp⟩
    · by_cases h2 : file.length < pos + 16
      · simp only [logRecsAux, if_neg h1, if_pos h2] at h
        exact absurd h (by simp)
      · by_cases h3 : file.length < pos + 16 + u32dec ((file.drop (pos + 8)).take 4)
            + u32dec ((file.drop (pos + 12)).take 4)
        · simp only [logRecsAux, if_neg h1, if_neg h2, if_pos h3] at h
          exact absurd h (by simp)
        · simp only [logRecsAux, if_neg h1, if_neg h2, if_neg h3] at h
          cases hr : logRecsAux file fuel (pos + 16 + u32dec ((file.drop (pos + 8)).take 4)
              + u32dec ((file.drop (pos + 12)).take 4)) with
          | none => rw [hr] at h; exact absurd h (by simp)
          | some rest =>
            rw [hr] at h
            have hrecs : recs = (pos, (file.drop (pos + 16)).take
                (u32dec ((file.drop (pos + 8)).take 4)),
                (file.drop (pos + 16 + u32dec ((file.drop (pos + 8)).take 4))).take
                (u32dec ((file.drop (pos + 12)).take 4))) :: rest := by
              have := Option.some.injEq _ recs ▸ h
              exact this.symm
            have hsz : sizeAt file pos = 16 + u32dec ((file.drop (pos + 8)).take 4)
                + u32dec ((file.drop (pos + 12)).take 4) := rfl
            obtain ⟨ihsum, ihmem, ihpw⟩ := ih _ rest hr (by omega)
            subst hrecs
            refine ⟨?_, ?_, ?_⟩
            · simp only [List.map_cons, List.sum_cons]
              show sizeAt file pos + (rest.map (fun r => sizeAt file r.1)).sum + pos
                = file.length
              omega
            · intro r hrm
              rcases List.mem_cons.1 hrm with rfl | hrm
              · refine ⟨le_refl _, ?_⟩
                show pos + sizeAt file pos ≤ file.length
                omega
              · have := ihmem r hrm
                exact ⟨by omega, this.2⟩
            · rw [List.pairwise_cons]
              refine ⟨?_, ihpw⟩
              intro r' hr'
              have hmem := ihmem r' hr'
              have hsp := sizeAt_pos file pos
              show pos < r'.1
              omega

theorem nodup_map_mem_inj {α β : Type} (f : α → β) :
    ∀ (l : List α), (l.map f).Nodup →
      ∀ a ∈ l, ∀ b ∈ l, f a = f b → a = b := by
  intro l
  induction l with
  | nil => intro _ a ha; simp at ha
  | cons x l ih =>
    intro hnd a ha b hb hf
    simp only [List.map_cons, List.nodup_cons] at hnd
    rcases List.mem_cons.1 ha with ha1 | ha2
    · rcases List.mem_cons.1 hb with hb1 | hb2
      · rw [ha1, hb1]
      · exfalso
        apply hnd.1
        rw [← ha1, hf]
        exact List.mem_map_of_mem f hb2
    · rcases List.mem_cons.1 hb with hb1 | hb2
      · exfalso
        apply hnd.1
        rw [← hb1, ← hf]
        exact List.mem_map_of_mem f ha2
      · exact ih hnd.2 a ha2 b hb2 hf

theorem length_le_sum (l : List Nat) (h : ∀ x ∈ l, 1 ≤ x) : l.length ≤ l.sum := by
  induction l with
  | nil => simp
  | cons x l ih =>
    simp only [List.length_cons, List.sum_cons]
    have hx := h x (by simp)
    have := ih (fun y hy => h y (by simp [hy]))
    omega

theorem lastUpd_ne_none (recs : List (Nat × Bytes × Bytes)) (k : Bytes) :
    ∀ r ∈ recs, r.2.1 = k →
      lastUpd (recs.map (fun r => (r.2.1, r.1))) k ≠ none := by
  induction recs with
  | nil => intro r hr; simp at hr
  | cons r0 rest ih =>
    intro r hr hk
    simp only [List.map_cons]
    show (match lastUpd (rest.map (fun r => (r.2.1, r.1))) k with
      | some o => some o
      | none => if r0.2.1 = k then some r0.1 else none) ≠ none
    cases hl : lastUpd (rest.map (fun r => (r.2.1, r.1))) k with
    | some o => simp
    | none =>
      rcases List.mem_cons.1 hr with rfl | hr
      · simp [hk]
      · exact absurd hl (ih r hr hk)

theorem lastUpd_recs (recs : List (Nat × Bytes × Bytes))
    (hpw : recs.Pairwise (fun r r' => r.1 < r'.1)) (k : Bytes) (o : Nat)
    (h : lastUpd (recs.map (fun r => (r.2.1, r.1))) k = some o) :
    ∃ vv, (o, k, vv) ∈ recs ∧ ∀ r' ∈ recs, r'.2.1 = k → r'.1 ≤ o := by
  induction recs with
  | nil => simp [lastUpd] at h
  | cons r0 rest ih =>
    simp only [List.map_cons] at h
    rw [show lastUpd ((r0.2.1, r0.1) :: rest.map (fun r => (r.2.1, r.1))) k
        = (match lastUpd (rest.map (fun r => (r.2.1, r.1))) k with
           | some o => some o
           | none => if r0.2.1 = k then some r0.1 else none) from rfl] at h
    rw [List.pairwise_cons] at hpw
    cases hl : lastUpd (rest.map (fun r => (r.2.1, r.1))) k with
    | some o2 =>
      rw [hl] at h
      have ho : o2 = o := by
        have := Option.some.injEq o2 o ▸ h
        exact this
      subst ho
      obtain ⟨vv, hmem, hmax⟩ := ih hpw.2 hl
      refine ⟨vv, List.mem_cons_of_mem r0 hmem, ?_⟩
      intro r' hr' hk'
      rcases List.mem_cons.1 hr' with rfl | hr'
      · exact le_of_lt (hpw.1 (o2, k, vv) hmem)
      · exact hmax r' hr' hk'
    | none =>
      rw [hl] at h
      by_cases hk0 : r0.2.1 = k
      · rw [if_pos hk0] at h
        have ho : r0.1 = o := by
          have := Option.some.injEq r0.1 o ▸ h
          exact this
        refine ⟨r0.2.2, ?_, ?_⟩
        · rw [← ho, ← hk0]
          exact List.mem_cons_self _ _
        · intro r' hr' hk'
          rcases List.mem_cons.1 hr' with rfl | hr'
          · omega
          · exact absurd hl (lastUpd_ne_none rest k r' hr' hk')
      · rw [if_neg hk0] at h
        exact absurd h (by simp)

theorem logRecsAux_decomp (file : Bytes) (hbo : ByteOk file) :
    ∀ (fuel pos : Nat) (recs : List (Nat × Bytes × Bytes)),
      logRecsAux file fuel pos = some recs →
      ∀ r ∈ recs, ∃ tsB pre post,
        tsB.length = 8 ∧ ByteOk tsB ∧ ByteOk r.2.1 ∧ ByteOk r.2.2 ∧
        pre.length = r.1 ∧
        file = pre ++ (recBytes tsB r.2.1 r.2.2 ++ post) ∧
        r.2.1.length = u32dec ((file.drop (r.1 + 8)).take 4) ∧
        r.2.2.length = u32dec ((file.drop (r.1 + 12)).take 4) ∧
        r.2.1.length < 2 ^ 32 ∧ r.2.2.length < 2 ^ 32 := by
  intro fuel
  induction fuel with
  | zero => intro pos recs h; simp [logRecsAux] at h
  | succ fuel ih =>
    intro pos recs h r hrm
    by_cases h1 : file.length ≤ pos
    · simp only [logRecsAux, if_pos h1] at h
      have hre : recs = [] := by
        have := Option.some.injEq ([] : List (Nat × Bytes × Bytes)) recs ▸ h
        exact this.symm
      subst hre
      simp at hrm
    · by_cases h2 : file.length < pos + 16
      · simp only [logRecsAux, if_neg h1, if_pos h2] at h
        exact absurd h (by simp)
      · by_cases h3 : file.length < pos + 16 + u32dec ((file.drop (pos + 8)).take 4)
            + u32dec ((file.drop (pos + 12)).take 4)
        · simp only [logRecsAux, if_neg h1, if_neg h2, if_pos h3] at h
          exact absurd h (by simp)
        · simp only [logRecsAux, if_neg h1, if_neg h2, if_neg h3] at h
          cases hrec : logRecsAux file fuel (pos + 16 + u32dec ((file.drop (pos + 8)).take 4)
              + u32dec ((file.drop (pos + 12)).take 4)) with
          | none => rw [hrec] at h; exact absurd h (by simp)
          | some rest =>
            rw [hrec] at h
            have hrecs : recs = (pos, (file.drop (pos + 16)).take
                (u32dec ((file.drop (pos + 8)).take 4)),
                (file.drop (pos + 16 + u32dec ((file.drop (pos + 8)).take 4))).take
                (u32dec ((file.drop (pos + 12)).take 4))) :: rest := by
              have := Option.some.injEq _ recs ▸ h
              exact this.symm
            subst hrecs
            rcases List.mem_cons.1 hrm with rfl | hrm
            · -- the head record: build the decomposition explicitly
              refine ⟨(file.drop pos).take 8, file.take pos,
                file.drop (pos + 16 + u32dec ((file.drop (pos + 8)).take 4)
                  + u32dec ((file.drop (pos + 12)).take 4)), ?_, ?_, ?_, ?_, ?_, ?_,
                ?_, ?_, ?_, ?_⟩
              · rw [List.length_take, List.length_drop]
                omega
              · exact byteOk_take _ (byteOk_drop _ hbo)
              · exact byteOk_take _ (byteOk_drop _ hbo)
              · exact byteOk_take _ (byteOk_drop _ hbo)
              · rw [List.length_take]
                omega
              · -- file = pre ++ (recBytes tsB key val ++ post)
                have hkl : ((file.drop (pos + 16)).take
                    (u32dec ((file.drop (pos + 8)).take 4))).length
                    = u32dec ((file.drop (pos + 8)).take 4) := by
                  rw [List.length_take, List.length_drop]
                  omega
                have hvl : ((file.drop (pos + 16 + u32dec ((file.drop (pos + 8)).take 4))).take
                    (u32dec ((file.drop (pos + 12)).take 4))).length
                    = u32dec ((file.drop (pos + 12)).take 4) := by
                  rw [List.length_take, List.length_drop]
                  omega
                have hu1 : u32le ((file.drop (pos + 16)).take
                    (u32dec ((file.drop (pos + 8)).take 4))).length
                    = (file.drop (pos + 8)).take 4 := by
                  rw [hkl]
                  exact u32le_u32dec _ (byteOk_take _ (byteOk_drop _ hbo))
                    (by rw [List.length_take, List.length_drop]; omega)
                have hu2 : u32le ((file.drop (pos + 16
                    + u32dec ((file.drop (pos + 8)).take 4))).take
                    (u32dec ((file.drop (pos + 12)).take 4))).length
                    = (file.drop (pos + 12)).take 4 := by
                  rw [hvl]
                  exact u32le_u32dec _ (byteOk_take _ (byteOk_drop _ hbo))
                    (by rw [List.length_take, List.length_drop]; omega)
                unfold recBytes
                rw [hu1, hu2]
                have t1 : file.take pos ++ (file.drop pos).take 8 = file.take (pos + 8) :=
                  (List.take_add file pos 8).symm
                have t2 : file.take (pos + 8) ++ (file.drop (pos + 8)).take 4
                    = file.take (pos + 12) := by
                  rw [← List.take_add]
                have t3 : file.take (pos + 12) ++ (file.drop (pos + 12)).take 4
                    = file.take (pos + 16) := by
                  rw [← List.take_add]
                have t4 : file.take (pos + 16) ++ (file.drop (pos + 16)).take
                    (u32dec ((file.drop (pos + 8)).take 4))
                    = file.take (pos + 16 + u32dec ((file.drop (pos + 8)).take 4)) :=
                  (List.take_add file _ _).symm
                have t5 : file.take (pos + 16 + u32dec ((file.drop (pos + 8)).take 4))
                    ++ (file.drop (pos + 16 + u32dec ((file.drop (pos + 8)).take 4))).take
                      (u32dec ((file.drop (pos + 12)).take 4))
                    = file.take (pos + 16 + u32dec ((file.drop (pos + 8)).take 4)
                      + u32dec ((file.drop (pos + 12)).take 4)) :=
                  (List.take_add file _ _).symm
                have t6 : file.take (pos + 16 + u32dec ((file.drop (pos + 8)).take 4)
                      + u32dec ((file.drop (pos + 12)).take 4))
                    ++ file.drop (pos + 16 + u32dec ((file.drop (pos + 8)).take 4)
                      + u32dec ((file.drop (pos + 12)).take 4)) = file :=
                  List.take_append_drop _ _
                have hglue : (((((file.take pos ++ (file.drop pos).take 8)
                    ++ (file.drop (pos + 8)).take 4) ++ (file.drop (pos + 12)).take 4)
                    ++ (file.drop (pos + 16)).take (u32dec ((file.drop (pos + 8)).take 4)))
                    ++ (file.drop (pos + 16 + u32dec ((file.drop (pos + 8)).take 4))).take
                      (u32dec ((file.drop (pos + 12)).take 4)))
                    ++ file.drop (pos + 16 + u32dec ((file.drop (pos + 8)).take 4)
                      + u32dec ((file.drop (pos + 12)).take 4)) = file := by
                  rw [t1, t2, t3, t4, t5, t6]
                conv_lhs => rw [← hglue]
                simp [List.append_assoc]
              · show ((file.drop (pos + 16)).take
                    (u32dec ((file.drop (pos + 8)).take 4))).length
                  = u32dec ((file.drop (pos + 8)).take 4)
                rw [List.length_take, List.length_drop]
                omega
              · show ((file.drop (pos + 16 + u32dec ((file.drop (pos + 8)).take 4))).take
                    (u32dec ((file.drop (pos + 12)).take 4))).length
                  = u32dec ((file.drop (pos + 12)).take 4)
                rw [List.length_take, List.length_drop]
                omega
              · show ((file.drop (pos + 16)).take
                    (u32dec ((file.drop (pos + 8)).take 4))).length < 2 ^ 32
                rw [List.length_take, List.length_drop]
                have := u32dec_lt ((file.drop (pos + 8)).take 4)
                  (byteOk_take _ (byteOk_drop _ hbo)) (by simp)
                omega
              · show ((file.drop (pos + 16 + u32dec ((file.drop (pos + 8)).take 4))).take
                    (u32dec ((file.drop (pos + 12)).take 4))).length < 2 ^ 32
                rw [List.length_take, List.length_drop]
                have := u32dec_lt ((file.drop (pos + 12)).take 4)
                  (byteOk_take _ (byteOk_drop _ hbo)) (by simp)
                omega
            · exact ih _ rest hrec r hrm

/-! ### Compaction -/

theorem compactLoop_allOk (orig : Engine) :
    ∀ (entries : List (Bytes × Nat)) (i : Nat) (temp : Bytes) (nidx : Index),
      compactLoop orig allOk entries i temp nidx
        = ⟨⟨(compactFold orig.file entries temp nidx).1,
            (compactFold orig.file entries temp nidx).2⟩, false, none⟩ := by
  intro entries
  induction entries with
  | nil => intro i temp nidx; rfl
  | cons p rest ih =>
    intro i temp nidx
    show compactLoop orig allOk (p :: rest) i temp nidx = _
    simp only [compactLoop, allOk, if_pos]
    rw [ih]
    rfl

theorem compactEntry_eq (pre post tsB k v : Bytes)
    (hts : tsB.length = 8) (hk : k.length < 2 ^ 32) (hv : v.length < 2 ^ 32) :
    compactEntry (pre ++ (recBytes tsB k v ++ post)) k pre.length = recBytes tsB k v := by
  have hrl : (recBytes tsB k v).length = 16 + k.length + v.length := recBytes_length _ _ _ hts
  have hflen : (pre ++ (recBytes tsB k v ++ post)).length
      = pre.length + (16 + k.length + v.length) + post.length := by
    simp [List.length_append, hrl]
    omega
  have hshape : recBytes tsB k v ++ post
      = tsB ++ (u32le k.length ++ (u32le v.length ++ (k ++ (v ++ post)))) := by
    simp [recBytes, List.append_assoc]
  have hdrop : ∀ j : Nat, (pre ++ (recBytes tsB k v ++ post)).drop (pre.length + j)
      = (recBytes tsB k v ++ post).drop j := fun j => drop_append_right _ _ j
  have hts8 : ((pre ++ (recBytes tsB k v ++ post)).drop pre.length).take 8 = tsB := by
    rw [List.drop_left pre _, hshape]
    exact (List.take_append_of_le_length (by omega)).trans (take_of_length_eq hts)
  have hks : ((pre ++ (recBytes tsB k v ++ post)).drop (pre.length + 8)).take 4
      = u32le k.length := by
    rw [hdrop 8, hshape, List.drop_left' hts]
    exact (List.take_append_of_le_length (by simp [u32le_length])).trans
      (take_of_length_eq (u32le_length _))
  have hvs : ((pre ++ (recBytes tsB k v ++ post)).drop (pre.length + 12)).take 4
      = u32le v.length := by
    rw [hdrop 12, hshape]
    rw [show tsB ++ (u32le k.length ++ (u32le v.length ++ (k ++ (v ++ post))))
        = (tsB ++ u32le k.length) ++ (u32le v.length ++ (k ++ (v ++ post))) from by
      simp [List.append_assoc]]
    rw [List.drop_left' (by simp [hts, u32le_length])]
    exact (List.take_append_of_le_length (by simp [u32le_length])).trans
      (take_of_length_eq (u32le_length _))
  have hval : ((pre ++ (recBytes tsB k v ++ post)).drop
      (pre.length + (16 + k.length))).take v.length = v := by
    rw [hdrop (16 + k.length), hshape]
    rw [show tsB ++ (u32le k.length ++ (u32le v.length ++ (k ++ (v ++ post))))
        = (((tsB ++ u32le k.length) ++ u32le v.length) ++ k) ++ (v ++ post) from by
      simp [List.append_assoc]]
    rw [List.drop_left' (by simp [hts, u32le_length]; omega)]
    exact List.take_left v post
  have hr8 : readTsBytes (pre ++ (recBytes tsB k v ++ post)) pre.length = tsB := by
    unfold readTsBytes
    rw [if_pos (by rw [hflen]; omega), hts8]
  have hrks : readU32At (pre ++ (recBytes tsB k v ++ post)) (pre.length + 8) = k.length := by
    unfold readU32At
    rw [if_pos (by rw [hflen]; omega), hks, u32dec_u32le]
    exact Nat.mod_eq_of_lt hk
  have hrvs : readU32At (pre ++ (recBytes tsB k v ++ post)) (pre.length + 12)
      = v.length := by
    unfold readU32At
    rw [if_pos (by rw [hflen]; omega), hvs, u32dec_u32le]
    exact Nat.mod_eq_of_lt hv
  simp only [compactEntry, hr8, hrks, hrvs]
  rw [show pre.length + 16 + k.length = pre.length + (16 + k.length) from by omega, hval]
  unfold extendTo
  rw [List.take_length, Nat.sub_self]
  simp [recBytes]

theorem compactFold_spec (file : Bytes) (recs : List (Nat × Bytes × Bytes))
    (hbo : ByteOk file) (hparse : logRecs file = some recs) :
    ∀ (entries : List (Bytes × Nat)) (temp : Bytes) (nidx : Index),
      (∀ p ∈ entries, ∃ v, (p.2, p.1, v) ∈ recs) →
      (entries.map Prod.fst).Nodup →
      (∀ p ∈ entries, p.1 ∉ nidx.map Prod.fst) →
      (∃ t, (compactFold file entries temp nidx).1 = temp ++ t) ∧
      (compactFold file entries temp nidx).1.length
        = temp.length + (entries.map (fun p => sizeAt file p.2)).sum ∧
      (compactFold file entries temp nidx).2.map Prod.fst
        = nidx.map Prod.fst ++ entries.map Prod.fst ∧
      (∀ q, q ∉ entries.map Prod.fst →
        idxGet (compactFold file entries temp nidx).2 q = idxGet nidx q) ∧
      (ByteOk temp → ByteOk (compactFold file entries temp nidx).1) ∧
      (∃ tailRecs,
        logRecsAux (compactFold file entries temp nidx).1 (entries.length + 1) temp.length
          = some tailRecs ∧
        tailRecs.map (fun r => r.2.1) = entries.map Prod.fst ∧
        (∀ p ∈ entries, ∃ v tsB pre post,
          (p.2, p.1, v) ∈ recs ∧ tsB.length = 8 ∧
          p.1.length < 2 ^ 32 ∧ v.length < 2 ^ 32 ∧
          (compactFold file entries temp nidx).1 = pre ++ (recBytes tsB p.1 v ++ post) ∧
          idxGet (compactFold file entries temp nidx).2 p.1 = some pre.length ∧
          (pre.length, p.1, v) ∈ tailRecs)) := by
  intro entries
  induction entries with
  | nil =>
    intro temp nidx _ _ _
    refine ⟨⟨[], by simp [compactFold]⟩, by simp [compactFold], by simp [compactFold],
      fun q _ => by simp [compactFold], fun h => h, ⟨[], ?_, by simp, by simp⟩⟩
    show logRecsAux temp (0 + 1) temp.length = some []
    exact logRecsAux_eof temp 0 temp.length (le_refl _)
  | cons p rest ih =>
    intro temp nidx hval hnd hfresh
    obtain ⟨v, hvrec⟩ := hval p (List.mem_cons_self p rest)
    obtain ⟨tsB, pre0, post0, h8, hbts, hbk0, hbv0, hpre0, hfile0, hklen0, hvlen0,
      hklt0, hvlt0⟩ :=
      logRecsAux_decomp file hbo (file.length + 1) 0 recs hparse (p.2, p.1, v) hvrec
    have hbk : ByteOk p.1 := hbk0
    have hbv : ByteOk v := hbv0
    have hpre : pre0.length = p.2 := hpre0
    have hfile : file = pre0 ++ (recBytes tsB p.1 v ++ post0) := hfile0
    have hklen : p.1.length = u32dec ((file.drop (p.2 + 8)).take 4) := hklen0
    have hvlen : v.length = u32dec ((file.drop (p.2 + 12)).take 4) := hvlen0
    have hklt : p.1.length < 2 ^ 32 := hklt0
    have hvlt : v.length < 2 ^ 32 := hvlt0
    have hce : compactEntry file p.1 p.2 = recBytes tsB p.1 v := by
      have h := compactEntry_eq pre0 post0 tsB p.1 v h8 hklt hvlt
      rw [← hfile, hpre] at h
      exact h
    have hrl : (recBytes tsB p.1 v).length = 16 + p.1.length + v.length :=
      recBytes_length _ _ _ h8
    have hsz : sizeAt file p.2 = 16 + p.1.length + v.length := by
      unfold sizeAt
      rw [← hklen, ← hvlen]
    have hndr : (rest.map Prod.fst).Nodup := (List.nodup_cons.1 (by simpa using hnd)).2
    have hpnr : p.1 ∉ rest.map Prod.fst := (List.nodup_cons.1 (by simpa using hnd)).1
    have hpn : p.1 ∉ nidx.map Prod.fst := hfresh p (List.mem_cons_self p rest)
    have hfreshr : ∀ q ∈ rest, q.1 ∉ (idxSet nidx p.1 temp.length).map Prod.fst := by
      intro q hq
      rw [idxSet_map_fst_not_mem nidx p.1 temp.length hpn]
      intro hm
      rcases List.mem_append.1 hm with hm | hm
      · exact hfresh q (List.mem_cons_of_mem p hq) hm
      · have : q.1 = p.1 := by simpa using hm
        exact hpnr (this ▸ List.mem_map_of_mem Prod.fst hq)
    have hstep : compactFold file (p :: rest) temp nidx
        = compactFold file rest (temp ++ recBytes tsB p.1 v)
            (idxSet nidx p.1 temp.length) := by
      show compactFold file rest (temp ++ compactEntry file p.1 p.2)
          (idxSet nidx p.1 temp.length) = _
      rw [hce]
    obtain ⟨⟨t2, hT⟩, hlen, hkeys, hstab, hbokeep, tailRecs2, htparse, htkeys, htper⟩ :=
      ih (temp ++ recBytes tsB p.1 v) (idxSet nidx p.1 temp.length)
        (fun q hq => hval q (List.mem_cons_of_mem p hq)) hndr hfreshr
    have hfold1 : (compactFold file (p :: rest) temp nidx).1
        = temp ++ (recBytes tsB p.1 v ++ t2) := by
      rw [hstep, hT, List.append_assoc]
    have htemplen : (temp ++ recBytes tsB p.1 v).length
        = temp.length + 16 + p.1.length + v.length := by
      rw [List.length_append, hrl]
      omega
    refine ⟨?_, ?_, ?_, ?_, ?_, ?_⟩
    · exact ⟨recBytes tsB p.1 v ++ t2, hfold1⟩
    · rw [hstep, hlen, htemplen]
      simp only [List.map_cons, List.sum_cons, hsz]
      omega
    · rw [hstep, hkeys, idxSet_map_fst_not_mem nidx p.1 temp.length hpn]
      simp [List.append_assoc]
    · intro q hq
      have hq1 : q ≠ p.1 := by
        intro he
        exact hq (by simp [he])
      have hq2 : q ∉ rest.map Prod.fst := by
        intro hm
        exact hq (by simp [hm])
      rw [hstep, hstab q hq2, idxGet_idxSet_ne nidx p.1 temp.length q hq1]
    · intro hbt
      rw [hstep]
      exact hbokeep (byteOk_append hbt (byteOk_recBytes hbts hbk hbv))
    · refine ⟨(temp.length, p.1, v) :: tailRecs2, ?_, ?_, ?_⟩
      · show logRecsAux (compactFold file (p :: rest) temp nidx).1
          ((p :: rest).length + 1) temp.length = _
        rw [hfold1]
        simp only [List.length_cons]
        rw [logRecsAux_step temp t2 tsB p.1 v (rest.length + 1) h8 hklt hvlt]
        have hpos2 : temp.length + 16 + p.1.length + v.length
            = (temp ++ recBytes tsB p.1 v).length := htemplen.symm
        rw [hpos2]
        have hparse2 : logRecsAux (temp ++ (recBytes tsB p.1 v ++ t2)) (rest.length + 1)
            (temp ++ recBytes tsB p.1 v).length = some tailRecs2 := by
          rw [← List.append_assoc, ← hT]
          exact htparse
        rw [hparse2]
        rfl
      · simp [htkeys]
      · intro q hq
        rcases List.mem_cons.1 hq with hq1 | hq2
        · subst hq1
          refine ⟨v, tsB, temp, t2, hvrec, h8, hklt, hvlt, hfold1, ?_, ?_⟩
          · rw [hstep, hstab q.1 hpnr, idxGet_idxSet_self]
          · exact List.mem_cons_self _ _
        · obtain ⟨v2, tsB2, pre2, post2, hv2, h82, hk2, hv2l, hdec2, hget2, hmem2⟩ :=
            htper q hq2
          refine ⟨v2, tsB2, pre2, post2, hv2, h82, hk2, hv2l, ?_, ?_, ?_⟩
          · rw [hstep]
            exact hdec2
          · rw [hstep]
            exact hget2
          · exact List.mem_cons_of_mem _ hmem2


theorem stateWF_val (recs : List (Nat × Bytes × Bytes)) (idx : Index)
    (hentry : ∀ p ∈ idx, entryOk recs p) :
    ∀ p ∈ idx, ∃ v, (p.2, p.1, v) ∈ recs := by
  intro p hp
  obtain ⟨r, hr, hr1, hr2, _⟩ := hentry p hp
  refine ⟨r.2.2, ?_⟩
  rw [← hr1, ← hr2]
  exact hr

/-- C5: after a successful `Compact()`, every key still `Get`s its latest
value unchanged, `Keys()` is exactly the pre-compaction key set, the new log
length is the sum over keys of each key's single latest record size
`16 + len(k) + len(latest value)` (equal to `sizeAt` of the entry's record
header), and that sum is at most the pre-compaction log length. -/
theorem compact_preserves (e : Engine) (hwf : StateWF e) :
    (∀ p ∈ e.index, ∃ v, getOp e p.1 = .ok v ∧ getOp (compactOp e) p.1 = .ok v ∧
       sizeAt e.file p.2 = 16 + p.1.length + v.length) ∧
    keysOp (compactOp e) = keysOp e ∧
    (compactOp e).file.length = (e.index.map (fun p => sizeAt e.file p.2)).sum ∧
    (e.index.map (fun p => sizeAt e.file p.2)).sum ≤ e.file.length := by
  obtain ⟨hbo, recs, hparse, hentry, hnd⟩ := hwf
  have hco : compactOp e = ⟨(compactFold e.file e.index [] []).1,
      (compactFold e.file e.index [] []).2⟩ := by
    unfold compactOp compactRun
    rw [if_pos rfl, compactLoop_allOk]
  have hval := stateWF_val recs e.index hentry
  obtain ⟨⟨t0, hT0⟩, hlen, hkeys, hstab0, hbok, tailRecs, htparse, htkeys, htper⟩ :=
    compactFold_spec e.file recs hbo hparse e.index [] [] hval hnd (by simp)
  obtain ⟨hsum, hbounds, hpw⟩ :=
    logRecsAux_structure e.file (e.file.length + 1) 0 recs hparse (Nat.zero_le _)
  have hoffnd : (recs.map (fun r => r.1)).Nodup :=
    (List.pairwise_map.mpr hpw).nodup
  refine ⟨?_, ?_, ?_, ?_⟩
  · intro p hp
    obtain ⟨v, tsB, pre, post, hvrec, h8, hklt, hvlt, hdecomp, hget, hmem⟩ := htper p hp
    refine ⟨v, ?_, ?_, ?_⟩
    · -- pre-compaction Get
      obtain ⟨tsB0, pre0, post0, h80, _, _, _, hpre0, hfile0, hklen0, hvlen0, _, _⟩ :=
        logRecsAux_decomp e.file hbo (e.file.length + 1) 0 recs hparse (p.2, p.1, v) hvrec
      have hpre0' : pre0.length = p.2 := hpre0
      have hfile0' : e.file = pre0 ++ (recBytes tsB0 p.1 v ++ post0) := hfile0
      have hidx : idxGet e.index p.1 = some pre0.length := by
        rw [hpre0']
        exact idxGet_eq_some_of_mem e.index p hnd hp
      have h := getOp_record pre0 post0 tsB0 p.1 v e.index h80 hklt hvlt hidx
      rw [← hfile0'] at h
      exact h
    · -- post-compaction Get
      rw [hco]
      have h := getOp_record pre post tsB p.1 v
        (compactFold e.file e.index [] []).2 h8 hklt hvlt hget
      rw [← hdecomp] at h
      exact h
    · -- record size
      obtain ⟨tsB0, pre0, post0, h80, _, _, _, hpre0, hfile0, hklen0, hvlen0, _, _⟩ :=
        logRecsAux_decomp e.file hbo (e.file.length + 1) 0 recs hparse (p.2, p.1, v) hvrec
      have hklen0' : p.1.length = u32dec ((e.file.drop (p.2 + 8)).take 4) := hklen0
      have hvlen0' : v.length = u32dec ((e.file.drop (p.2 + 12)).take 4) := hvlen0
      unfold sizeAt
      rw [← hklen0', ← hvlen0']
  · rw [hco]
    unfold keysOp
    rw [hkeys]
    simp
  · rw [hco, hlen]
    simp
  · have hmm : e.index.map (fun p => sizeAt e.file p.2)
        = (e.index.map Prod.snd).map (sizeAt e.file) :=
      (List.map_map (sizeAt e.file) Prod.snd e.index).symm
    have hmm2 : recs.map (fun r => sizeAt e.file r.1)
        = (recs.map (fun r => r.1)).map (sizeAt e.file) :=
      (List.map_map (sizeAt e.file) (fun r : Nat × Bytes × Bytes => r.1) recs).symm
    have hidxpw : e.index.Pairwise (fun a b => a.1 ≠ b.1) := List.pairwise_map.mp hnd
    have hsndpw : e.index.Pairwise (fun a b => a.2 ≠ b.2) := by
      refine hidxpw.imp_of_mem ?_
      intro a b ha hb hne hsnd
      obtain ⟨va, hva⟩ := hval a ha
      obtain ⟨vb, hvb⟩ := hval b hb
      have heq : ((a.2, a.1, va) : Nat × Bytes × Bytes) = (b.2, b.1, vb) := by
        apply nodup_map_mem_inj (fun r => r.1) recs hoffnd _ hva _ hvb
        simpa using hsnd
      exact hne (congrArg (fun r => r.2.1) heq)
    have hsnd : (e.index.map Prod.snd).Nodup := List.pairwise_map.mpr hsndpw
    have hsub : (e.index.map Prod.snd).toFinset ⊆ (recs.map (fun r => r.1)).toFinset := by
      intro x hx
      rw [List.mem_toFinset] at hx ⊢
      obtain ⟨p, hp, hpx⟩ := List.mem_map.1 hx
      obtain ⟨v, hv⟩ := hval p hp
      exact List.mem_map.2 ⟨(p.2, p.1, v), hv, hpx⟩
    calc (e.index.map (fun p => sizeAt e.file p.2)).sum
        = (e.index.map Prod.snd).toFinset.sum (sizeAt e.file) := by
          rw [hmm, List.sum_toFinset _ hsnd]
      _ ≤ (recs.map (fun r => r.1)).toFinset.sum (sizeAt e.file) :=
          Finset.sum_le_sum_of_subset hsub
      _ = (recs.map (fun r => sizeAt e.file r.1)).sum := by
          rw [hmm2, List.sum_toFinset _ hoffnd]
      _ ≤ e.file.length := by omega

/-- Witness for C5 at a concrete input: a two-record store where the key
`[1]` was overwritten, compacted down to one record. -/
theorem compact_preserves_witness :
    keysOp (compactOp ⟨encRecord 0 [1] [9, 9] ++ encRecord 0 [1] [7], [([1], 19)]⟩)
      = keysOp ⟨encRecord 0 [1] [9, 9] ++ encRecord 0 [1] [7], [([1], 19)]⟩ :=
  (compact_preserves ⟨encRecord 0 [1] [9, 9] ++ encRecord 0 [1] [7], [([1], 19)]⟩
    ⟨by decide, [(0, [1], [9, 9]), (19, [1], [7])], by decide, by decide, by decide⟩).2.1

/-- C7: the index invariant — every entry `(k, off)` points at the start of
a complete record of the current log whose key is `k` and whose offset is
the largest among the records for `k` — is preserved by every successful
mutating operation: `Set` (for byte-string keys/values of representable
length), `Load` (which also succeeds on such a state), and `Compact`. -/
theorem index_invariant (e : Engine) (ts : Int) (k v : Bytes)
    (hbk : ByteOk k) (hbv : ByteOk v) (hk : k.length < 2 ^ 32) (hv : v.length < 2 ^ 32)
    (hwf : StateWF e) :
    StateWF (setStep e ts k v .ok).1 ∧
    ((loadOp e).2 = none ∧ StateWF (loadOp e).1) ∧
    StateWF (compactOp e) := by
  obtain ⟨hbo, recs, hparse, hentry, hnd⟩ := hwf
  have hparse0 : logRecsAux e.file (e.file.length + 1) 0 = some recs := hparse
  obtain ⟨hsum, hbounds, hpw⟩ :=
    logRecsAux_structure e.file (e.file.length + 1) 0 recs hparse0 (Nat.zero_le _)
  have hrl : (encRecord ts k v).length = 16 + k.length + v.length :=
    recBytes_length _ _ _ (i64le_length _)
  refine ⟨?_, ?_, ?_⟩
  · -- Set preserves the invariant
    show StateWF ⟨e.file ++ encRecord ts k v, idxSet e.index k e.file.length⟩
    have happ := logRecsAux_append_record e.file (i64le ts) k v (i64le_length _) hk hv
      (e.file.length + 1) 0 recs (Nat.zero_le _) hparse0
    refine ⟨byteOk_append hbo (byteOk_encRecord ts hbk hbv),
      recs ++ [(e.file.length, k, v)], ?_, ?_, idxSet_nodup _ _ _ hnd⟩
    · show logRecsAux (e.file ++ encRecord ts k v)
        ((e.file ++ encRecord ts k v).length + 1) 0 = _
      exact logRecsAux_mono _ _ _ _ _ happ (by simp [List.length_append, hrl]; omega)
    · intro p hp
      rcases mem_idxSet e.index k e.file.length p hnd hp with rfl | ⟨hpm, hpk⟩
      · refine ⟨(e.file.length, k, v), List.mem_append_right _ (by simp), rfl, rfl, ?_⟩
        intro r' hr' _
        rcases List.mem_append.1 hr' with hr' | hr'
        · have hb := hbounds r' hr'
          have hs := sizeAt_pos e.file r'.1
          omega
        · have : r' = (e.file.length, k, v) := by simpa using hr'
          rw [this]
      · obtain ⟨r, hr, h1, h2, hmax⟩ := hentry p hpm
        refine ⟨r, List.mem_append_left _ hr, h1, h2, ?_⟩
        intro r' hr' hk'
        rcases List.mem_append.1 hr' with hr' | hr'
        · exact hmax r' hr' hk'
        · exfalso
          have : r' = (e.file.length, k, v) := by simpa using hr'
          rw [this] at hk'
          exact hpk hk'.symm
  · -- Load succeeds and preserves the invariant
    have hscan := scanUpds_of_logRecs e.file (e.file.length + 1) 0 recs hparse0
    have hload : loadOp e
        = (⟨e.file, applyUpds (recs.map (fun r => (r.2.1, r.1))) e.index⟩, none) := by
      unfold loadOp
      rw [loadAux_eq_scan, hscan]
    refine ⟨by rw [hload], ?_⟩
    rw [hload]
    refine ⟨hbo, recs, hparse, ?_, applyUpds_nodup _ _ hnd⟩
    intro p hp
    have hlk : idxGet (applyUpds (recs.map (fun r => (r.2.1, r.1))) e.index) p.1
        = some p.2 :=
      idxGet_eq_some_of_mem _ p (applyUpds_nodup _ _ hnd) hp
    rw [idxGet_applyUpds] at hlk
    cases hl : lastUpd (recs.map (fun r => (r.2.1, r.1))) p.1 with
    | some o =>
      rw [hl] at hlk
      have ho : o = p.2 := by
        have := Option.some.injEq o p.2 ▸ hlk
        exact this
      obtain ⟨vv, hmem, hmax⟩ := lastUpd_recs recs hpw p.1 o hl
      exact ⟨(o, p.1, vv), hmem, ho, rfl, fun r' hr' hk' => hmax r' hr' hk'⟩
    | none =>
      exfalso
      rw [hl] at hlk
      have hpm : (p.1, p.2) ∈ e.index := mem_of_idxGet_eq_some _ _ _ hlk
      obtain ⟨r, hr, _, h2, _⟩ := hentry (p.1, p.2) hpm
      exact lastUpd_ne_none recs p.1 r hr h2 hl
  · -- Compact preserves the invariant
    have hco : compactOp e = ⟨(compactFold e.file e.index [] []).1,
        (compactFold e.file e.index [] []).2⟩ := by
      unfold compactOp compactRun
      rw [if_pos rfl, compactLoop_allOk]
    have hval := stateWF_val recs e.index hentry
    obtain ⟨⟨t0, hT0⟩, hlen, hkeys, hstab0, hbok, tailRecs, htparse, htkeys, htper⟩ :=
      compactFold_spec e.file recs hbo hparse e.index [] [] hval hnd (by simp)
    have hkeys2 : (compactFold e.file e.index [] []).2.map Prod.fst
        = e.index.map Prod.fst := by
      rw [hkeys]
      simp
    have hnd2 : ((compactFold e.file e.index [] []).2.map Prod.fst).Nodup := by
      rw [hkeys2]
      exact hnd
    have htnd : (tailRecs.map (fun r => r.2.1)).Nodup := by
      rw [htkeys]
      exact hnd
    have hfuel : e.index.length + 1 ≤ (compactFold e.file e.index [] []).1.length + 1 := by
      have h1 : (e.index.map (fun p => sizeAt e.file p.2)).length
          ≤ (e.index.map (fun p => sizeAt e.file p.2)).sum := by
        apply length_le_sum
        intro x hx
        obtain ⟨p, _, hpx⟩ := List.mem_map.1 hx
        rw [← hpx]
        exact sizeAt_pos e.file p.2
      rw [List.length_map] at h1
      omega
    rw [hco]
    refine ⟨hbok (fun b hb => absurd hb (List.not_mem_nil b)), tailRecs, ?_, ?_, hnd2⟩
    · show logRecsAux (compactFold e.file e.index [] []).1
        ((compactFold e.file e.index [] []).1.length + 1) 0 = some tailRecs
      exact logRecsAux_mono _ _ _ _ _ htparse hfuel
    · intro p hp
      have hlk : idxGet (compactFold e.file e.index [] []).2 p.1 = some p.2 :=
        idxGet_eq_some_of_mem _ p hnd2 hp
      have hkm : p.1 ∈ e.index.map Prod.fst := by
        rw [← hkeys2]
        exact List.mem_map_of_mem Prod.fst hp
      obtain ⟨q, hq, hq1⟩ := List.mem_map.1 hkm
      obtain ⟨v2, tsB2, pre2, post2, _, _, _, _, _, hget2, hmem2⟩ := htper q hq
      rw [hq1] at hget2
      have hp2 : p.2 = pre2.length := by
        rw [hlk] at hget2
        have := Option.some.injEq p.2 pre2.length ▸ hget2
        exact this
      refine ⟨(pre2.length, q.1, v2), hmem2, by rw [hp2], by rw [hq1], ?_⟩
      intro r' hr' hk'
      have hre : r' = (pre2.length, q.1, v2) := by
        apply nodup_map_mem_inj (fun r => r.2.1) tailRecs htnd _ hr' _ hmem2
        show r'.2.1 = q.1
        rw [hk', ← hq1]
      rw [hre]

/-- Witness for C7 at a concrete input: the invariant holds on the empty
store and is preserved by a `Set` there. -/
theorem index_invariant_witness :
    StateWF (setStep ⟨[], []⟩ 0 [3] [4] .ok).1 :=
  (index_invariant ⟨[], []⟩ 0 [3] [4] (by decide) (by decide) (by decide) (by decide)
    ⟨by decide, [], rfl, by decide, by decide⟩).1

end AtomKV
